import Mathlib

/-!
Shallow embedding of the datasource core of gpui-liveplot
(src/datasource/mod.rs, src/datasource/summary.rs, src/datasource/store.rs)
and proofs about its append, range-query, summary and decimation logic.

Finite `f64` values are modelled as exact rationals; NaN and the two
infinities are explicit constructors, and every comparison follows the
IEEE rule that NaN compares false with everything.  Rounding of `f64`
arithmetic is not modelled: the embedded arithmetic is exact.
-/

attribute [local semireducible] Rat.add Rat.mul Rat.sub Rat.inv

namespace LivePlot

/-- Model of an `f64` value: NaN, the two infinities, or an exact finite
value represented as a rational. -/
inductive F where
  | nan : F
  | inf : F
  | ninf : F
  | fin : ℚ → F
deriving DecidableEq

namespace F

/-- Rust `f64::is_finite`. -/
def isFinite : F → Bool
  | fin _ => true
  | _ => false

/-- IEEE `<` on doubles: NaN compares false with everything. -/
def lt : F → F → Bool
  | fin a, fin b => decide (a < b)
  | fin _, inf => true
  | ninf, fin _ => true
  | ninf, inf => true
  | _, _ => false

/-- IEEE `<=` on doubles: NaN compares false with everything. -/
def le : F → F → Bool
  | fin a, fin b => decide (a ≤ b)
  | fin _, inf => true
  | ninf, fin _ => true
  | ninf, inf => true
  | ninf, ninf => true
  | inf, inf => true
  | _, _ => false

/-- IEEE `==` on doubles: NaN is not equal to itself. -/
def beq : F → F → Bool
  | fin a, fin b => decide (a = b)
  | inf, inf => true
  | ninf, ninf => true
  | _, _ => false

/-- IEEE subtraction; only the finite/finite case carries arithmetic. -/
def sub : F → F → F
  | nan, _ => nan
  | _, nan => nan
  | inf, inf => nan
  | inf, _ => inf
  | ninf, ninf => nan
  | ninf, _ => ninf
  | fin _, inf => ninf
  | fin _, ninf => inf
  | fin a, fin b => fin (a - b)

/-- IEEE division (signed zeros are not modelled; the code divides only by
spans already checked to be positive). -/
def div : F → F → F
  | nan, _ => nan
  | _, nan => nan
  | inf, inf => nan
  | inf, ninf => nan
  | ninf, inf => nan
  | ninf, ninf => nan
  | inf, fin b => if b < 0 then ninf else inf
  | ninf, fin b => if b < 0 then inf else ninf
  | fin _, inf => fin 0
  | fin _, ninf => fin 0
  | fin a, fin b =>
      if b = 0 then (if a = 0 then nan else if 0 < a then inf else ninf)
      else fin (a / b)

/-- IEEE multiplication. -/
def mul : F → F → F
  | nan, _ => nan
  | _, nan => nan
  | inf, inf => inf
  | inf, ninf => ninf
  | ninf, inf => ninf
  | ninf, ninf => inf
  | inf, fin b => if b = 0 then nan else if 0 < b then inf else ninf
  | ninf, fin b => if b = 0 then nan else if 0 < b then ninf else inf
  | fin a, inf => if a = 0 then nan else if 0 < a then inf else ninf
  | fin a, ninf => if a = 0 then nan else if 0 < a then ninf else inf
  | fin a, fin b => fin (a * b)

/-- Rust `f64::ceil`. -/
def ceil : F → F
  | fin q => fin ((Int.ceil q : ℤ) : ℚ)
  | x => x

/-- Rust `f64::floor`. -/
def floor : F → F
  | fin q => fin ((Int.floor q : ℤ) : ℚ)
  | x => x

/-- Rust `f64::round`: round half away from zero. -/
def round : F → F
  | fin q => fin (if 0 ≤ q then ((Int.floor (q + 1/2) : ℤ) : ℚ)
                  else -((Int.floor (-q + 1/2) : ℤ) : ℚ))
  | x => x

/-- Rust `f64::abs`. -/
def fabs : F → F
  | fin q => fin |q|
  | nan => nan
  | _ => inf

/-- Rust `f64::max`: if one argument is NaN the other is returned. -/
def fmax : F → F → F
  | nan, b => b
  | a, nan => a
  | a, b => if le a b then b else a

/-- Rust `f64::min`: if one argument is NaN the other is returned. -/
def fmin : F → F → F
  | nan, b => b
  | a, nan => a
  | a, b => if le a b then a else b

/-- Truncation of a rational toward zero, as Rust `as` casts do. -/
def qtrunc (q : ℚ) : ℤ :=
  if 0 ≤ q then Int.floor q else Int.ceil q

/-- Rust saturating `as i64`/`as isize` cast (64-bit targets): NaN casts to
0, the result is clamped into the `isize` range. -/
def toIsize : F → ℤ
  | nan => 0
  | inf => 2 ^ 63 - 1
  | ninf => -(2 ^ 63)
  | fin q => max (-(2 ^ 63)) (min (2 ^ 63 - 1) (qtrunc q))

/-- Rust saturating `as usize` cast (64-bit targets): NaN casts to 0,
negative values to 0, the result is clamped into the `usize` range. -/
def toUsize : F → ℕ
  | nan => 0
  | inf => 2 ^ 64 - 1
  | ninf => 0
  | fin q => (max 0 (min (2 ^ 64 - 1) (qtrunc q))).toNat

end F

/-- Rust `usize::saturating_mul` on a 64-bit target. -/
def satMul (a b : ℕ) : ℕ :=
  min (a * b) (2 ^ 64 - 1)

/-- A 2D sample (`Point` in src/geom.rs); equality of `f64` fields in the
Rust code is IEEE equality, modelled by `Point.beq`. -/
structure Point where
  x : F
  y : F
deriving DecidableEq

instance : Inhabited Point := ⟨⟨F.fin 0, F.fin 0⟩⟩

/-- Rust `PartialEq` on `Point`: componentwise IEEE equality. -/
def Point.beq (p q : Point) : Bool :=
  F.beq p.x q.x && F.beq p.y q.y

/-- Numeric range with inclusive bounds (src/view.rs). -/
structure Range where
  min : F
  max : F
deriving DecidableEq

namespace Range

/-- Construct a range, swapping the bounds if `min > max` (IEEE compare). -/
def new (mn mx : F) : Range :=
  if F.lt mx mn then ⟨mx, mn⟩ else ⟨mn, mx⟩

/-- Span of the range. -/
def span (r : Range) : F :=
  F.sub r.max r.min

/-- Check whether both bounds are finite. -/
def is_finite (r : Range) : Bool :=
  r.min.isFinite && r.max.isFinite

/-- Expand the range to include a value (non-finite values are ignored). -/
def expand_to_include (r : Range) (value : F) : Range :=
  if !value.isFinite then r
  else ⟨if F.lt value r.min then value else r.min,
        if F.lt r.max value then value else r.max⟩

end Range

/-- A 2D interval pair (src/view.rs). -/
structure Viewport where
  x : Range
  y : Range
deriving DecidableEq

/-- Mode of the X axis data. -/
inductive XMode where
  | Index : XMode
  | Explicit : XMode
deriving DecidableEq

/-- Errors that can occur when appending data. -/
inductive AppendError where
  | WrongMode : AppendError
  | NonMonotonicX : AppendError
deriving DecidableEq

instance {ε α : Type} [DecidableEq ε] [DecidableEq α] : DecidableEq (Except ε α) := fun a b =>
  match a, b with
  | Except.ok x, Except.ok y =>
    if h : x = y then isTrue (by rw [h]) else isFalse (fun hh => h (by cases hh; rfl))
  | Except.error x, Except.error y =>
    if h : x = y then isTrue (by rw [h]) else isFalse (fun hh => h (by cases hh; rfl))
  | Except.ok _, Except.error _ => isFalse (fun hh => Except.noConfusion hh)
  | Except.error _, Except.ok _ => isFalse (fun hh => Except.noConfusion hh)

/-- Append-only data storage with incremental bounds tracking. -/
structure AppendOnlyData where
  points : List Point
  x_mode : XMode
  monotonic : Bool
  bounds : Option Viewport
deriving DecidableEq

namespace AppendOnlyData

/-- Create an empty data set with implicit X indices. -/
def indexed : AppendOnlyData :=
  ⟨[], XMode.Index, true, none⟩

/-- Create an empty data set with explicit X values. -/
def explicit : AppendOnlyData :=
  ⟨[], XMode.Explicit, true, none⟩

/-- Incrementally expand the bounds cache with one appended point
(`update_bounds` in src/datasource/mod.rs). -/
def update_bounds (b : Option Viewport) (p : Point) : Option Viewport :=
  match b with
  | none => some ⟨⟨p.x, p.x⟩, ⟨p.y, p.y⟩⟩
  | some v => some ⟨v.x.expand_to_include p.x, v.y.expand_to_include p.y⟩

/-- Append one point to the raw log and the bounds cache. -/
def appendRaw (d : AppendOnlyData) (p : Point) : AppendOnlyData :=
  { d with points := d.points ++ [p], bounds := update_bounds d.bounds p }

/-- Loop body of `extend_y`: each value is paired with its index as X. -/
def extendYGo : AppendOnlyData → List F → AppendOnlyData
  | d, [] => d
  | d, v :: vs => extendYGo (d.appendRaw ⟨F.fin (d.points.length : ℚ), v⟩) vs

/-- Append multiple Y values for indexed data. -/
def extend_y (d : AppendOnlyData) (values : List F) :
    AppendOnlyData × Except AppendError ℕ :=
  if d.x_mode ≠ XMode.Index then (d, Except.error AppendError.WrongMode)
  else
    let d' := extendYGo d values
    (d', Except.ok (d'.points.length - d.points.length))

/-- Append a Y value for indexed data. -/
def push_y (d : AppendOnlyData) (y : F) : AppendOnlyData × Except AppendError ℕ :=
  let index := d.points.length
  let r := d.extend_y [y]
  (r.1, r.2.map fun _ => index)

/-- Loop body of `extend_points`: appends every point, tracking whether an
out-of-order X was seen anywhere in the batch. -/
def extPtsGo : AppendOnlyData → Option F → List Point → AppendOnlyData × Bool
  | d, _, [] => (d, false)
  | d, lastX, p :: ps =>
    let viol := match lastX with
      | some lx => F.lt p.x lx
      | none => false
    let d1 := { d.appendRaw p with monotonic := if viol then false else d.monotonic }
    let rest := extPtsGo d1 (some p.x) ps
    (rest.1, viol || rest.2)

/-- Append multiple points with explicit X values: all points are appended;
the call reports `NonMonotonicX` if any violation occurred in the batch. -/
def extend_points (d : AppendOnlyData) (ps : List Point) :
    AppendOnlyData × Except AppendError ℕ :=
  if d.x_mode ≠ XMode.Explicit then (d, Except.error AppendError.WrongMode)
  else
    let lastX := d.points.getLast?.map Point.x
    let r := extPtsGo d lastX ps
    (r.1, if r.2 then Except.error AppendError.NonMonotonicX
          else Except.ok (r.1.points.length - d.points.length))

/-- Append a point with explicit X value. -/
def push_point (d : AppendOnlyData) (p : Point) :
    AppendOnlyData × Except AppendError ℕ :=
  let index := d.points.length
  let r := d.extend_points [p]
  (r.1, r.2.map fun _ => index)

/-- Build an indexed data set from a list of Y values. -/
def from_iter_y (values : List F) : AppendOnlyData :=
  (indexed.extend_y values).1

/-- Build an explicit data set from a list of points. -/
def from_iter_points (ps : List Point) : AppendOnlyData :=
  (explicit.extend_points ps).1

end AppendOnlyData

/-- Shared skeleton of the two binary-search loops `lower_bound` and
`upper_bound` (src/datasource/mod.rs); they differ only in the probe
predicate.  The first argument is explicit fuel bounding the number of
loop iterations: every iteration shrinks `right - left`, so any fuel of at
least `right - left` gives the loop's exact behavior. -/
def bsGo (ps : List Point) (pred : Point → Bool) : ℕ → ℕ → ℕ → ℕ
  | 0, left, _ => left
  | fuel + 1, left, right =>
    if left < right then
      let mid := (left + right) / 2
      if pred (ps.getD mid default) then bsGo ps pred fuel (mid + 1) right
      else bsGo ps pred fuel left mid
    else left

/-- First index whose X is not less than `target` (on sorted data). -/
def lower_bound (ps : List Point) (target : F) : ℕ :=
  bsGo ps (fun p => F.lt p.x target) ps.length 0 ps.length

/-- First index whose X is greater than `target` (on sorted data). -/
def upper_bound (ps : List Point) (target : F) : ℕ :=
  bsGo ps (fun p => F.le p.x target) ps.length 0 ps.length

/-- Index-mode X-range to index-span conversion (`index_range` in
src/datasource/mod.rs), with Rust's saturating float-to-int casts. -/
def index_range (r : Range) (len : ℕ) : ℕ × ℕ :=
  if len = 0 then (0, 0)
  else
    let mn : ℤ := F.toIsize (F.ceil r.min)
    let mx : ℤ := F.toIsize (F.floor r.max)
    if mx < 0 ∨ mn > mx then (0, 0)
    else
      let start := (max mn 0).toNat
      let e := min (mx.toNat + 1) len
      (min start e, e)

namespace AppendOnlyData

/-- Find the index range that intersects the X range; the result is the
half-open span `(start, end)`. -/
def range_by_x (d : AppendOnlyData) (r : Range) : ℕ × ℕ :=
  if d.points = [] then (0, 0)
  else
    match d.x_mode with
    | XMode.Index => index_range r d.points.length
    | XMode.Explicit =>
      if !d.monotonic then (0, d.points.length)
      else (lower_bound d.points r.min, upper_bound d.points r.max)

/-- Linear-scan fallback of `nearest_index_by_x` for non-monotonic data. -/
def nearestLinGo : List Point → F → ℕ → Option ℕ → F → Option ℕ
  | [], _, _, best, _ => best
  | p :: ps, x, i, best, bestDist =>
    let dist := F.fabs (F.sub p.x x)
    if F.lt dist bestDist then nearestLinGo ps x (i + 1) (some i) dist
    else nearestLinGo ps x (i + 1) best bestDist

/-- Find the index of the point with nearest X value. -/
def nearest_index_by_x (d : AppendOnlyData) (x : F) : Option ℕ :=
  if d.points = [] ∨ x.isFinite = false then none
  else
    match d.x_mode with
    | XMode.Index =>
      let maxIndex : F := F.fin ((d.points.length - 1 : ℕ) : ℚ)
      let clamped := F.fmin (F.fmax (F.round x) (F.fin 0)) maxIndex
      some (F.toUsize clamped)
    | XMode.Explicit =>
      if !d.monotonic then nearestLinGo d.points x 0 none F.inf
      else
        let lower := lower_bound d.points x
        if lower = 0 then some 0
        else if d.points.length ≤ lower then some (d.points.length - 1)
        else
          let left := lower - 1
          let right := lower
          let leftDist := F.fabs (F.sub (d.points.getD left default).x x)
          let rightDist := F.fabs (F.sub (d.points.getD right default).x x)
          if F.le leftDist rightDist then some left else some right

end AppendOnlyData

/-- Min/max envelope for a bucket of points (src/datasource/summary.rs). -/
structure MinMax where
  min : Point
  max : Point
  x_range : Range
deriving DecidableEq

/-- Trailing bucket for points that have not reached the base chunk size. -/
structure PartialBucket where
  count : ℕ
  min : Point
  max : Point
  first_x : F
  last_x : F
deriving DecidableEq

namespace PartialBucket

/-- Start a partial bucket from its first point. -/
def new (p : Point) : PartialBucket :=
  ⟨1, p, p, p.x, p.x⟩

/-- Fold one more point into the partial bucket (strict IEEE comparisons:
on an equal Y the earlier point is kept). -/
def push (pb : PartialBucket) (p : Point) : PartialBucket :=
  { pb with
    count := pb.count + 1
    last_x := p.x
    min := if F.lt p.y pb.min.y then p else pb.min
    max := if F.lt pb.max.y p.y then p else pb.max }

end PartialBucket

namespace MinMax

/-- Freeze a partial bucket into a `MinMax` summary. -/
def fromPartialBucket (pb : PartialBucket) : MinMax :=
  ⟨pb.min, pb.max, Range.new pb.first_x pb.last_x⟩

/-- Merge two bucket summaries; on an equal Y the point with the smaller X
wins. -/
def merge (a b : MinMax) : MinMax :=
  let mn := if F.lt a.min.y b.min.y then a.min
            else if F.lt b.min.y a.min.y then b.min
            else if F.le a.min.x b.min.x then a.min else b.min
  let mx := if F.lt b.max.y a.max.y then a.max
            else if F.lt a.max.y b.max.y then b.max
            else if F.le a.max.x b.max.x then a.max else b.max
  ⟨mn, mx, ⟨F.fmin a.x_range.min b.x_range.min, F.fmax a.x_range.max b.x_range.max⟩⟩

/-- Push min/max points in X order into the output. -/
def push_ordered (m : MinMax) (out : List Point) : List Point :=
  if m.min.beq m.max then out ++ [m.min]
  else if F.le m.min.x m.max.x then out ++ [m.min, m.max]
  else out ++ [m.max, m.min]

end MinMax

/-- Summary bucket level: all buckets of one fixed chunk size. -/
structure SummaryLevel where
  chunk_size : ℕ
  buckets : List MinMax
deriving DecidableEq

/-- Multi-level min/max summaries for append-only data. -/
structure SummaryLevels where
  base_chunk : ℕ
  levels : List SummaryLevel
  partialBkt : Option PartialBucket
deriving DecidableEq

namespace SummaryLevels

/-- Create summaries with the given base chunk size (floor 1). -/
def new (base_chunk : ℕ) : SummaryLevels :=
  ⟨max base_chunk 1, [], none⟩

/-- Recursion of `push_bucket` with explicit fuel bounding the number of
cascading merges: the recursion stops no later than one step past the
current number of levels (which the recursion never changes), so any fuel
of at least `levels.length + 1 - k` gives the loop's exact behavior. -/
def push_bucketAux : ℕ → SummaryLevels → ℕ → MinMax → SummaryLevels
  | 0, s, _, _ => s
  | fuel + 1, s, k, b =>
    if h : k < s.levels.length then
      let lvl := s.levels.get ⟨k, h⟩
      let bs := lvl.buckets ++ [b]
      let s1 := { s with levels := s.levels.set k { lvl with buckets := bs } }
      if bs.length % 2 = 0 then
        push_bucketAux fuel s1 (k + 1)
          (MinMax.merge (bs.getD (bs.length - 2) b) (bs.getD (bs.length - 1) b))
      else s1
    else
      { s with levels := s.levels ++ [⟨satMul s.base_chunk (2 ^ k), [b]⟩] }

/-- Append a bucket to level `k`; whenever a level's bucket count becomes
even, its last two buckets are merged into the next level.  The
out-of-level-range case (unreachable from `push`: `push_bucket` is only
called at `k = 0` or at `k + 1` after touching level `k`) creates the next
level, as the source does before indexing it. -/
def push_bucket (s : SummaryLevels) (k : ℕ) (b : MinMax) : SummaryLevels :=
  push_bucketAux (s.levels.length + 1 - k) s k b

/-- Push a new point into the summaries. -/
def push (s : SummaryLevels) (p : Point) : SummaryLevels :=
  match s.partialBkt with
  | none => { s with partialBkt := some (PartialBucket.new p) }
  | some pb =>
    let pb := pb.push p
    if s.base_chunk ≤ pb.count then
      push_bucket { s with partialBkt := none } 0 (MinMax.fromPartialBucket pb)
    else { s with partialBkt := some pb }

/-- Return a partial bucket summary when the base chunk is not full. -/
def partial_bucket (s : SummaryLevels) : Option MinMax :=
  s.partialBkt.map MinMax.fromPartialBucket

/-- Choose the finest summary level whose chunk size is at least
`target_chunk`, else the coarsest available level. -/
def choose_level (s : SummaryLevels) (target_chunk : ℕ) : Option SummaryLevel :=
  let t := max target_chunk 1
  match s.levels.find? (fun lvl => t ≤ lvl.chunk_size) with
  | some lvl => some lvl
  | none => s.levels.getLast?

end SummaryLevels

/-- Pixel-bucket min/max accumulator cell for `decimate_minmax`. -/
structure Bucket where
  has_data : Bool
  min : Point
  max : Point
deriving DecidableEq

instance : Inhabited Bucket := ⟨⟨false, ⟨F.fin 0, F.fin 0⟩, ⟨F.fin 0, F.fin 0⟩⟩⟩

namespace Bucket

/-- Mark the cell empty (stale min/max values are kept, as in the source). -/
def reset (b : Bucket) : Bucket :=
  { b with has_data := false }

/-- Fold one point into the cell (strict IEEE comparisons: on an equal Y
the earlier point is kept). -/
def push (b : Bucket) (p : Point) : Bucket :=
  if b.has_data = false then ⟨true, p, p⟩
  else ⟨true, if F.lt p.y b.min.y then p else b.min,
        if F.lt b.max.y p.y then p else b.max⟩

/-- The points one cell emits: nothing when empty, the single point when
min equals max (IEEE point equality), else min and max in X order. -/
def emit (b : Bucket) : List Point :=
  if b.has_data = false then []
  else if b.min.beq b.max then [b.min]
  else if F.le b.min.x b.max.x then [b.min, b.max]
  else [b.max, b.min]

/-- Emit the cell's min/max points in X order (nothing when empty). -/
def push_ordered (b : Bucket) (out : List Point) : List Point :=
  if b.has_data = false then out
  else if b.min.beq b.max then out ++ [b.min]
  else if F.le b.min.x b.max.x then out ++ [b.min, b.max]
  else out ++ [b.max, b.min]

theorem push_ordered_eq_append (b : Bucket) (out : List Point) :
    b.push_ordered out = out ++ b.emit := by
  unfold push_ordered emit
  split_ifs <;> simp

theorem emit_length_le (b : Bucket) : b.emit.length ≤ 2 := by
  unfold emit
  split_ifs <;> simp

end Bucket

/-- Concatenated emission of a row of bucket cells, in cell order: the
output-building loop of `decimate_minmax`. -/
def joinEmit : List Bucket → List Point
  | [] => []
  | b :: bs => b.emit ++ joinEmit bs

theorem foldl_push_ordered (l : List Bucket) :
    ∀ out : List Point, l.foldl (fun o b => b.push_ordered o) out = out ++ joinEmit l := by
  induction l with
  | nil => intro out; simp [joinEmit]
  | cons b bs ih =>
    intro out
    rw [List.foldl_cons, Bucket.push_ordered_eq_append b out, ih, joinEmit,
      List.append_assoc]

theorem joinEmit_length_le (l : List Bucket) : (joinEmit l).length ≤ 2 * l.length := by
  induction l with
  | nil => simp [joinEmit]
  | cons b bs ih =>
    have := Bucket.emit_length_le b
    simp only [joinEmit, List.length_append, List.length_cons]
    omega

/-- Scratch buffers for decimation: grow-only bucket cells and the output
point list. -/
structure DecimationScratch where
  buckets : List Bucket
  points : List Point
deriving DecidableEq

/-- The pixel bucket a point is folded into, or `none` when the point is
skipped (non-finite coordinates, or normalized position outside `[0, 1]`).
This is the per-point branch of the loop of `decimate_minmax`. -/
def bucketIndex (x_range : Range) (pixel_width : ℕ) (p : Point) : Option ℕ :=
  if p.x.isFinite = false ∨ p.y.isFinite = false then none
  else
    let t := F.div (F.sub p.x x_range.min) x_range.span
    if (F.le (F.fin 0) t && F.le t (F.fin 1)) = false then none
    else
      let idx := F.toUsize (F.mul t (F.fin (pixel_width : ℚ)))
      some (if pixel_width ≤ idx then pixel_width - 1 else idx)

/-- Bucket-row preparation of `decimate_minmax`: grow the reusable scratch
row to `pixel_width` cells if needed, then reset the first `pixel_width`
cells (stale min/max values beyond the reset flag are kept, as in the
source). -/
def prepBuckets (pixel_width : ℕ) (buckets : List Bucket) : List Bucket :=
  let bks0 := if buckets.length < pixel_width
              then buckets ++ List.replicate (pixel_width - buckets.length) default
              else buckets
  (bks0.take pixel_width).map Bucket.reset ++ bks0.drop pixel_width

/-- The single-pass fold of `decimate_minmax`: each point is folded into
the cell `bucketIndex` assigns it, skipped points leave the row alone. -/
def foldPoints (x_range : Range) (pixel_width : ℕ) (ps : List Point)
    (bks : List Bucket) : List Bucket :=
  ps.foldl (fun acc p =>
      match bucketIndex x_range pixel_width p with
      | none => acc
      | some i => acc.set i ((acc.getD i default).push p)) bks

/-- Decimate points into a min/max envelope with approximately one bucket
per pixel (`decimate_minmax` in src/datasource/summary.rs).  The returned
scratch holds the output in its `points` field. -/
def decimate_minmax (ps : List Point) (x_range : Range) (pixel_width : ℕ)
    (scratch : DecimationScratch) : DecimationScratch :=
  let scratch := { scratch with points := [] }
  if ps = [] ∨ pixel_width = 0 then scratch
  else if F.le x_range.span (F.fin 0) then { scratch with points := ps }
  else
    let bks2 := foldPoints x_range pixel_width ps (prepBuckets pixel_width scratch.buckets)
    let out := (bks2.take pixel_width).foldl (fun o b => b.push_ordered o) []
    ⟨bks2, out⟩

/-- Append-only series storage with summaries and generation tracking
(src/datasource/store.rs); the generation counter is a `u64` modelled as a
natural number reduced modulo `2 ^ 64`. -/
structure SeriesStore where
  data : AppendOnlyData
  summary : SummaryLevels
  generation : ℕ
deriving DecidableEq

namespace SeriesStore

/-- Create a store from existing data and base chunk size. -/
def with_base_chunk (data : AppendOnlyData) (base_chunk : ℕ) : SeriesStore :=
  ⟨data, data.points.foldl SummaryLevels.push (SummaryLevels.new base_chunk), 0⟩

/-- Create an indexed series store with the default summary settings. -/
def indexed : SeriesStore :=
  with_base_chunk AppendOnlyData.indexed 64

/-- Push all points appended since `start_len` into the summaries and bump
the generation counter by their number (wrapping `u64` addition). -/
def update_summary_from (s : SeriesStore) (start_len : ℕ) : SeriesStore :=
  let new_len := s.data.points.length
  if new_len ≤ start_len then s
  else
    { s with
      summary := (s.data.points.drop start_len).foldl SummaryLevels.push s.summary
      generation := (s.generation + (new_len - start_len)) % 2 ^ 64 }

/-- Append a Y value for indexed data. -/
def push_y (s : SeriesStore) (y : F) : SeriesStore × Except AppendError ℕ :=
  let r := s.data.push_y y
  match r.2 with
  | Except.ok index =>
    match r.1.points.get? index with
    | some p =>
      (⟨r.1, s.summary.push p, (s.generation + 1) % 2 ^ 64⟩, r.2)
    | none => ({ s with data := r.1 }, r.2)
  | Except.error _ => ({ s with data := r.1 }, r.2)

/-- Append multiple Y values for indexed data. -/
def extend_y (s : SeriesStore) (values : List F) : SeriesStore × Except AppendError ℕ :=
  let start_len := s.data.points.length
  let r := s.data.extend_y values
  match r.2 with
  | Except.ok _ => (update_summary_from { s with data := r.1 } start_len, r.2)
  | Except.error _ => ({ s with data := r.1 }, r.2)

/-- Append multiple explicit points: the summaries and generation are also
updated when the batch reports `NonMonotonicX`. -/
def extend_points (s : SeriesStore) (ps : List Point) : SeriesStore × Except AppendError ℕ :=
  let start_len := s.data.points.length
  let r := s.data.extend_points ps
  match r.2 with
  | Except.ok _ => (update_summary_from { s with data := r.1 } start_len, r.2)
  | Except.error AppendError.NonMonotonicX =>
    (update_summary_from { s with data := r.1 } start_len, r.2)
  | Except.error AppendError.WrongMode => ({ s with data := r.1 }, r.2)

/-- Append one explicit point. -/
def push_point (s : SeriesStore) (p : Point) : SeriesStore × Except AppendError ℕ :=
  let index := s.data.points.length
  let r := s.extend_points [p]
  (r.1, r.2.map fun _ => index)

/-- Decimate data for rendering within an X range and pixel width
(`SeriesStore::decimate` in src/datasource/store.rs).  The returned
scratch holds the output in its `points` field. -/
def decimate (s : SeriesStore) (x_range : Range) (pixel_width : ℕ)
    (scratch : DecimationScratch) : DecimationScratch :=
  let scratch := { scratch with points := [] }
  if pixel_width = 0 ∨ s.data.points = [] then scratch
  else
    let pr := s.data.range_by_x x_range
    let ps := (s.data.points.drop pr.1).take (pr.2 - pr.1)
    if ps = [] then scratch
    else if ps.length ≤ satMul pixel_width 2 then { scratch with points := ps }
    else if s.data.x_mode = XMode.Explicit ∧ s.data.monotonic = false then
      decimate_minmax ps x_range pixel_width scratch
    else
      let target_bucket :=
        F.toUsize (F.ceil (F.div (F.fin (ps.length : ℚ)) (F.fin (pixel_width : ℚ))))
      if target_bucket < s.summary.base_chunk then
        decimate_minmax ps x_range pixel_width scratch
      else
        match s.summary.choose_level target_bucket with
        | some level =>
          let out := level.buckets.foldl (fun o b =>
              if F.lt b.x_range.max x_range.min || F.lt x_range.max b.x_range.min then o
              else b.push_ordered o) []
          let out := match s.summary.partial_bucket with
            | some pb =>
              if F.le x_range.min pb.x_range.max && F.le pb.x_range.min x_range.max
              then pb.push_ordered out else out
            | none => out
          { scratch with points := out }
        | none => decimate_minmax ps x_range pixel_width scratch

end SeriesStore

/-- One call of the append interface of `SeriesStore`. -/
inductive Op where
  | pushY : F → Op
  | extendY : List F → Op
  | pushPoint : Point → Op
  | extendPoints : List Point → Op

/-- Apply one append call to a store. -/
def SeriesStore.applyOp (s : SeriesStore) : Op → SeriesStore × Except AppendError ℕ
  | Op.pushY y => s.push_y y
  | Op.extendY vs => s.extend_y vs
  | Op.pushPoint p => s.push_point p
  | Op.extendPoints ps => s.extend_points ps

/-- Apply a sequence of append calls, keeping the resulting stores. -/
def SeriesStore.applyOps (s : SeriesStore) (ops : List Op) : SeriesStore :=
  ops.foldl (fun a op => (a.applyOp op).1) s

/-- Whether a batch, appended after a point with X `lastX`, contains a
point whose X is smaller (IEEE `<`) than the X immediately preceding it:
exactly the condition under which the loop of `extend_points` reports
`NonMonotonicX`. -/
def hasViol : Option F → List Point → Bool
  | _, [] => false
  | lastX, p :: ps =>
    (match lastX with
     | some lx => F.lt p.x lx
     | none => false) || hasViol (some p.x) ps

/-- Whether a point's X lies inside a range (IEEE comparisons). -/
def inXRange (r : Range) (p : Point) : Bool :=
  F.le r.min p.x && F.le p.x r.max

/-- An explicit-mode data set built through the append API: the result of
a sequence of `extend_points` batches starting from `explicit`
(`push_point` and `from_iter_points` are single-batch special cases). -/
def buildExplicit (batches : List (List Point)) : AppendOnlyData :=
  batches.foldl (fun d ps => (d.extend_points ps).1) AppendOnlyData.explicit

namespace F

theorem le_trans_f {a b c : F} (h1 : le a b = true) (h2 : le b c = true) :
    le a c = true := by
  cases a <;> cases b <;> cases c <;> simp_all [le] <;> linarith

theorem le_of_lt_of_le_f {a b c : F} (h1 : lt a b = true) (h2 : le b c = true) :
    le a c = true := by
  cases a <;> cases b <;> cases c <;> simp_all [lt, le] <;> linarith

theorem lt_of_le_of_lt_f {a b c : F} (h1 : le a b = true) (h2 : lt b c = true) :
    lt a c = true := by
  cases a <;> cases b <;> cases c <;> simp_all [lt, le] <;> linarith

theorem lt_of_lt_of_le_f {a b c : F} (h1 : lt a b = true) (h2 : le b c = true) :
    lt a c = true := by
  cases a <;> cases b <;> cases c <;> simp_all [lt, le] <;> linarith

theorem le_refl_f {a : F} (h : isFinite a = true) : le a a = true := by
  cases a <;> simp_all [isFinite, le]

theorem le_of_not_lt_f {a b : F} (ha : isFinite a = true) (hb : isFinite b = true)
    (h : lt a b = false) : le b a = true := by
  cases a <;> cases b <;> simp_all [isFinite, lt, le] <;> linarith

theorem not_lt_of_le_f {a b : F} (h : le a b = true) : lt b a = false := by
  cases a <;> cases b <;> simp_all [lt, le] <;> linarith

end F

/-- Claim C7 (corrected): the pairwise merge `MinMax::merge` does prefer
the smaller X on an equal Y, but the direct accumulators
(`PartialBucket::push` and the pixel-bucket `Bucket::push` of
`decimate_minmax`) use strict comparisons and therefore keep the point
seen first in input order on an equal Y, which is the smaller-X point only
when the input is X-sorted; the selected extrema are a function of the
input sequence, not of its multiset. -/
theorem tie_break_amended :
    (∀ a b : MinMax, F.lt a.min.y b.min.y = false → F.lt b.min.y a.min.y = false →
      (MinMax.merge a b).min = if F.le a.min.x b.min.x then a.min else b.min)
  ∧ (∀ a b : MinMax, F.lt b.max.y a.max.y = false → F.lt a.max.y b.max.y = false →
      (MinMax.merge a b).max = if F.le a.max.x b.max.x then a.max else b.max)
  ∧ (∀ (b : Bucket) (p : Point), b.has_data = true → F.lt p.y b.min.y = false →
      (b.push p).min = b.min)
  ∧ (∀ (b : Bucket) (p : Point), b.has_data = true → F.lt b.max.y p.y = false →
      (b.push p).max = b.max)
  ∧ (∀ (pb : PartialBucket) (p : Point), F.lt p.y pb.min.y = false →
      (pb.push p).min = pb.min)
  ∧ (∀ (pb : PartialBucket) (p : Point), F.lt pb.max.y p.y = false →
      (pb.push p).max = pb.max) := by
  refine ⟨?_, ?_, ?_, ?_, ?_, ?_⟩
  · intro a b h1 h2
    simp [MinMax.merge, h1, h2]
  · intro a b h1 h2
    simp [MinMax.merge, h1, h2]
  · intro b p hd h
    simp [Bucket.push, hd, h]
  · intro b p hd h
    simp [Bucket.push, hd, h]
  · intro pb p h
    simp [PartialBucket.push, h]
  · intro pb p h
    simp [PartialBucket.push, h]

/-- Claim C7, witness for `tie_break_amended`: on an equal Y, the merge of
two buckets selects the smaller-X candidate. -/
theorem tie_break_amended_witness :
    F.lt (F.fin 0) (F.fin 0) = false
    ∧ (MinMax.merge ⟨⟨F.fin 3, F.fin 0⟩, ⟨F.fin 3, F.fin 0⟩, ⟨F.fin 3, F.fin 3⟩⟩
        ⟨⟨F.fin 1, F.fin 0⟩, ⟨F.fin 1, F.fin 0⟩, ⟨F.fin 1, F.fin 1⟩⟩).min
          = ⟨F.fin 1, F.fin 0⟩ := by
  refine ⟨by decide, ?_⟩
  have h := tie_break_amended.1
    ⟨⟨F.fin 3, F.fin 0⟩, ⟨F.fin 3, F.fin 0⟩, ⟨F.fin 3, F.fin 3⟩⟩
    ⟨⟨F.fin 1, F.fin 0⟩, ⟨F.fin 1, F.fin 0⟩, ⟨F.fin 1, F.fin 1⟩⟩
    (by decide) (by decide)
  exact h.trans (by decide)

/-- Claim C7, counterexample: the pixel-bucket accumulator of
`decimate_minmax` keeps the first-pushed point on an equal Y even when a
later point has smaller X, so it does not prefer the smaller X and the
selected minimum depends on the input order, not only on the multiset of
points. -/
theorem tie_break_cex :
    (Bucket.push (Bucket.push default ⟨F.fin 5, F.fin 0⟩) ⟨F.fin 1, F.fin 0⟩).min
      = ⟨F.fin 5, F.fin 0⟩
    ∧ F.lt (F.fin 1) (F.fin 5) = true
    ∧ (Bucket.push (Bucket.push default ⟨F.fin 1, F.fin 0⟩) ⟨F.fin 5, F.fin 0⟩).min
      = ⟨F.fin 1, F.fin 0⟩ := by
  decide

theorem extPtsGo_spec (ps : List Point) :
    ∀ (d : AppendOnlyData) (lastX : Option F),
      (AppendOnlyData.extPtsGo d lastX ps).1.points = d.points ++ ps
    ∧ (AppendOnlyData.extPtsGo d lastX ps).1.x_mode = d.x_mode
    ∧ (AppendOnlyData.extPtsGo d lastX ps).1.monotonic
        = (d.monotonic && !hasViol lastX ps)
    ∧ (AppendOnlyData.extPtsGo d lastX ps).2 = hasViol lastX ps := by
  induction ps with
  | nil =>
    intro d lastX
    simp [AppendOnlyData.extPtsGo, hasViol]
  | cons p ps ih =>
    intro d lastX
    have step : ∀ (viol : Bool),
        (match lastX with
         | some lx => F.lt p.x lx
         | none => false) = viol →
        (AppendOnlyData.extPtsGo d lastX (p :: ps)).1.points = d.points ++ (p :: ps)
      ∧ (AppendOnlyData.extPtsGo d lastX (p :: ps)).1.x_mode = d.x_mode
      ∧ (AppendOnlyData.extPtsGo d lastX (p :: ps)).1.monotonic
          = (d.monotonic && !hasViol lastX (p :: ps))
      ∧ (AppendOnlyData.extPtsGo d lastX (p :: ps)).2 = hasViol lastX (p :: ps) := by
      intro viol hviol
      obtain ⟨ih1, ih2, ih3, ih4⟩ :=
        ih { d.appendRaw p with monotonic := if viol then false else d.monotonic } (some p.x)
      simp only [AppendOnlyData.extPtsGo, hasViol, hviol]
      refine ⟨?_, ?_, ?_, ?_⟩
      · rw [ih1]
        simp [AppendOnlyData.appendRaw]
      · rw [ih2]
        simp [AppendOnlyData.appendRaw]
      · rw [ih3]
        cases viol <;> simp [AppendOnlyData.appendRaw]
      · rw [ih4]
    exact step _ rfl

theorem extend_points_spec (d : AppendOnlyData) (ps : List Point)
    (h : d.x_mode = XMode.Explicit) :
    (d.extend_points ps).1.points = d.points ++ ps
  ∧ (d.extend_points ps).1.x_mode = XMode.Explicit
  ∧ (d.extend_points ps).1.monotonic
      = (d.monotonic && !hasViol (d.points.getLast?.map Point.x) ps)
  ∧ (d.extend_points ps).2
      = (if hasViol (d.points.getLast?.map Point.x) ps
         then Except.error AppendError.NonMonotonicX
         else Except.ok ps.length) := by
  obtain ⟨h1, h2, h3, h4⟩ := extPtsGo_spec ps d (d.points.getLast?.map Point.x)
  simp only [AppendOnlyData.extend_points, h, ne_eq, not_true_eq_false, if_neg,
    ite_false, reduceIte]
  refine ⟨h1, h2.trans h, h3, ?_⟩
  rw [h4, h1]
  by_cases hv : hasViol (d.points.getLast?.map Point.x) ps = true
  · simp [hv]
  · simp only [Bool.not_eq_true] at hv
    simp [hv]

/-- Claim C4 (confirmed): a batch with an out-of-order X is appended in
full, reports `NonMonotonicX`, never rolls back, and clears the monotonic
flag; a subsequent ordered batch succeeds while the flag stays false. -/
theorem extend_points_non_monotonic (d : AppendOnlyData) (batch next : List Point)
    (hmode : d.x_mode = XMode.Explicit)
    (hv : hasViol (d.points.getLast?.map Point.x) batch = true)
    (hn : hasViol ((d.extend_points batch).1.points.getLast?.map Point.x) next = false) :
    (d.extend_points batch).1.points = d.points ++ batch
    ∧ (d.extend_points batch).1.points.length = d.points.length + batch.length
    ∧ (d.extend_points batch).2 = Except.error AppendError.NonMonotonicX
    ∧ (d.extend_points batch).1.monotonic = false
    ∧ ((d.extend_points batch).1.extend_points next).2 = Except.ok next.length
    ∧ ((d.extend_points batch).1.extend_points next).1.monotonic = false := by
  obtain ⟨h1, h2, h3, h4⟩ := extend_points_spec d batch hmode
  obtain ⟨g1, g2, g3, g4⟩ := extend_points_spec (d.extend_points batch).1 next h2
  refine ⟨h1, ?_, ?_, ?_, ?_, ?_⟩
  · rw [h1, List.length_append]
  · rw [h4, if_pos hv]
  · rw [h3, hv]
    simp
  · rw [g4, hn]
    simp
  · rw [g3, h3, hv]
    simp

/-- Claim C4, witness for `extend_points_non_monotonic`: a concrete
out-of-order batch followed by an ordered one. -/
theorem extend_points_non_monotonic_witness :
    AppendOnlyData.explicit.x_mode = XMode.Explicit
    ∧ hasViol (AppendOnlyData.explicit.points.getLast?.map Point.x)
        [⟨F.fin 1, F.fin 1⟩, ⟨F.fin (1/2), F.fin 2⟩] = true
    ∧ hasViol (((AppendOnlyData.explicit.extend_points
        [⟨F.fin 1, F.fin 1⟩, ⟨F.fin (1/2), F.fin 2⟩]).1.points.getLast?).map Point.x)
        [⟨F.fin 2, F.fin 3⟩] = false
    ∧ ((AppendOnlyData.explicit.extend_points
        [⟨F.fin 1, F.fin 1⟩, ⟨F.fin (1/2), F.fin 2⟩]).1.points
          = AppendOnlyData.explicit.points ++ [⟨F.fin 1, F.fin 1⟩, ⟨F.fin (1/2), F.fin 2⟩]
    ∧ (AppendOnlyData.explicit.extend_points
        [⟨F.fin 1, F.fin 1⟩, ⟨F.fin (1/2), F.fin 2⟩]).1.points.length
          = AppendOnlyData.explicit.points.length + 2
    ∧ (AppendOnlyData.explicit.extend_points
        [⟨F.fin 1, F.fin 1⟩, ⟨F.fin (1/2), F.fin 2⟩]).2
          = Except.error AppendError.NonMonotonicX
    ∧ (AppendOnlyData.explicit.extend_points
        [⟨F.fin 1, F.fin 1⟩, ⟨F.fin (1/2), F.fin 2⟩]).1.monotonic = false
    ∧ ((AppendOnlyData.explicit.extend_points
        [⟨F.fin 1, F.fin 1⟩, ⟨F.fin (1/2), F.fin 2⟩]).1.extend_points
        [⟨F.fin 2, F.fin 3⟩]).2 = Except.ok 1
    ∧ ((AppendOnlyData.explicit.extend_points
        [⟨F.fin 1, F.fin 1⟩, ⟨F.fin (1/2), F.fin 2⟩]).1.extend_points
        [⟨F.fin 2, F.fin 3⟩]).1.monotonic = false) := by
  refine ⟨by decide, by decide, by decide, ?_⟩
  exact extend_points_non_monotonic AppendOnlyData.explicit
    [⟨F.fin 1, F.fin 1⟩, ⟨F.fin (1/2), F.fin 2⟩] [⟨F.fin 2, F.fin 3⟩]
    (by decide) (by decide) (by decide)

theorem extendYGo_spec (vs : List F) :
    ∀ d : AppendOnlyData,
      (AppendOnlyData.extendYGo d vs).points.length = d.points.length + vs.length
    ∧ (AppendOnlyData.extendYGo d vs).x_mode = d.x_mode := by
  induction vs with
  | nil =>
    intro d
    simp [AppendOnlyData.extendYGo]
  | cons v vs ih =>
    intro d
    obtain ⟨ih1, ih2⟩ := ih (d.appendRaw ⟨F.fin (d.points.length : ℚ), v⟩)
    refine ⟨?_, ?_⟩
    · rw [AppendOnlyData.extendYGo, ih1]
      simp [AppendOnlyData.appendRaw]
      omega
    · rw [AppendOnlyData.extendYGo, ih2]
      simp [AppendOnlyData.appendRaw]

theorem extend_y_spec (d : AppendOnlyData) (vs : List F) (h : d.x_mode = XMode.Index) :
    (d.extend_y vs).1.points.length = d.points.length + vs.length
  ∧ (d.extend_y vs).1.x_mode = XMode.Index
  ∧ (d.extend_y vs).2 = Except.ok vs.length := by
  obtain ⟨h1, h2⟩ := extendYGo_spec vs d
  simp only [AppendOnlyData.extend_y, h, ne_eq, not_true_eq_false, reduceIte]
  exact ⟨h1, h2.trans h, by rw [h1]; simp⟩

theorem extend_y_wrong_mode (d : AppendOnlyData) (vs : List F)
    (h : d.x_mode ≠ XMode.Index) :
    d.extend_y vs = (d, Except.error AppendError.WrongMode) := by
  simp [AppendOnlyData.extend_y, h]

theorem extend_points_wrong_mode (d : AppendOnlyData) (ps : List Point)
    (h : d.x_mode ≠ XMode.Explicit) :
    d.extend_points ps = (d, Except.error AppendError.WrongMode) := by
  simp [AppendOnlyData.extend_points, h]

theorem update_from_gen (s : SeriesStore) (d' : AppendOnlyData)
    (hg : s.generation < 2 ^ 64) (hs : s.data.points.length ≤ d'.points.length) :
    (SeriesStore.update_summary_from { s with data := d' } s.data.points.length).generation
      = (s.generation + (d'.points.length - s.data.points.length)) % 2 ^ 64
  ∧ (SeriesStore.update_summary_from { s with data := d' } s.data.points.length).data = d'
  ∧ (SeriesStore.update_summary_from { s with data := d' }
      s.data.points.length).generation < 2 ^ 64 := by
  by_cases h : d'.points.length ≤ s.data.points.length
  · have hz : d'.points.length - s.data.points.length = 0 := by omega
    simp [SeriesStore.update_summary_from, h, hz]
    exact ⟨by omega, hg⟩
  · simp [SeriesStore.update_summary_from, h]
    exact Nat.mod_lt _ (by norm_num)

theorem applyOp_gen (s : SeriesStore) (op : Op) (hg : s.generation < 2 ^ 64) :
    (s.applyOp op).1.generation
      = (s.generation + ((s.applyOp op).1.data.points.length - s.data.points.length)) % 2 ^ 64
  ∧ s.data.points.length ≤ (s.applyOp op).1.data.points.length
  ∧ (s.applyOp op).1.generation < 2 ^ 64 := by
  cases op with
  | pushY y =>
    simp only [SeriesStore.applyOp, SeriesStore.push_y, AppendOnlyData.push_y]
    by_cases h : s.data.x_mode = XMode.Index
    · obtain ⟨e1, e2, e3⟩ := extend_y_spec s.data [y] h
      rw [List.length_singleton] at e1
      have hlen1 : s.data.points.length < (s.data.extend_y [y]).1.points.length := by
        omega
      have hp : (s.data.extend_y [y]).1.points.get? s.data.points.length
          = some ((s.data.extend_y [y]).1.points.get
              ⟨s.data.points.length, hlen1⟩) :=
        List.get?_eq_get hlen1
      simp only [e3, Except.map, hp, e1]
      refine ⟨by omega, by omega, Nat.mod_lt _ (by norm_num)⟩
    · rw [extend_y_wrong_mode s.data [y] (by simp [h])]
      simp [Except.map]
      exact ⟨by omega, hg⟩
  | extendY vs =>
    simp only [SeriesStore.applyOp, SeriesStore.extend_y]
    by_cases h : s.data.x_mode = XMode.Index
    · obtain ⟨e1, e2, e3⟩ := extend_y_spec s.data vs h
      obtain ⟨u1, u2, u3⟩ := update_from_gen s (s.data.extend_y vs).1 hg (by omega)
      simp only [e3]
      refine ⟨?_, ?_, u3⟩
      · rw [u1, u2]
      · rw [u2]
        omega
    · rw [extend_y_wrong_mode s.data vs (by simp [h])]
      simp
      exact ⟨by omega, hg⟩
  | extendPoints ps =>
    simp only [SeriesStore.applyOp, SeriesStore.extend_points]
    by_cases h : s.data.x_mode = XMode.Explicit
    · obtain ⟨e1, e2, e3, e4⟩ := extend_points_spec s.data ps h
      have hlen : (s.data.extend_points ps).1.points.length
          = s.data.points.length + ps.length := by
        rw [e1, List.length_append]
      obtain ⟨u1, u2, u3⟩ := update_from_gen s (s.data.extend_points ps).1 hg (by omega)
      by_cases hv : hasViol (s.data.points.getLast?.map Point.x) ps = true
      · rw [e4]
        simp only [hv, reduceIte]
        refine ⟨?_, ?_, u3⟩
        · rw [u1, u2]
        · rw [u2]
          omega
      · rw [e4]
        simp only [hv, Bool.false_eq_true, reduceIte]
        refine ⟨?_, ?_, u3⟩
        · rw [u1, u2]
        · rw [u2]
          omega
    · rw [extend_points_wrong_mode s.data ps (by simp [h])]
      simp
      exact ⟨by omega, hg⟩
  | pushPoint p =>
    simp only [SeriesStore.applyOp, SeriesStore.push_point, SeriesStore.extend_points]
    by_cases h : s.data.x_mode = XMode.Explicit
    · obtain ⟨e1, e2, e3, e4⟩ := extend_points_spec s.data [p] h
      have hlen : (s.data.extend_points [p]).1.points.length
          = s.data.points.length + 1 := by
        rw [e1, List.length_append, List.length_singleton]
      obtain ⟨u1, u2, u3⟩ := update_from_gen s (s.data.extend_points [p]).1 hg (by omega)
      by_cases hv : hasViol (s.data.points.getLast?.map Point.x) [p] = true
      · rw [e4]
        simp only [hv, reduceIte]
        refine ⟨?_, ?_, u3⟩
        · rw [u1, u2]
        · rw [u2]
          omega
      · rw [e4]
        simp only [hv, Bool.false_eq_true, reduceIte]
        refine ⟨?_, ?_, u3⟩
        · rw [u1, u2]
        · rw [u2]
          omega
    · rw [extend_points_wrong_mode s.data [p] (by simp [h])]
      simp [Except.map]
      exact ⟨by omega, hg⟩

theorem applyOps_gen (ops : List Op) :
    ∀ (s : SeriesStore), s.generation < 2 ^ 64 →
      (s.applyOps ops).generation
        = (s.generation
            + ((s.applyOps ops).data.points.length - s.data.points.length)) % 2 ^ 64
    ∧ s.data.points.length ≤ (s.applyOps ops).data.points.length
    ∧ (s.applyOps ops).generation < 2 ^ 64 := by
  induction ops with
  | nil =>
    intro s hg
    simp only [SeriesStore.applyOps, List.foldl_nil]
    exact ⟨by omega, le_refl _, hg⟩
  | cons op ops ih =>
    intro s hg
    obtain ⟨g1, g2, g3⟩ := applyOp_gen s op hg
    obtain ⟨i1, i2, i3⟩ := ih (s.applyOp op).1 g3
    have happ : s.applyOps (op :: ops) = ((s.applyOp op).1).applyOps ops := by
      simp [SeriesStore.applyOps]
    rw [happ]
    refine ⟨?_, by omega, i3⟩
    rw [i1, g1]
    omega

/-- Claim C5 (confirmed): over any sequence of append calls, the
generation counter grows (with wrapping `u64` addition) by exactly the
number of points appended — including batches that report `NonMonotonicX`
but still append — and a call that returns `WrongMode` changes neither the
generation nor the data. -/
theorem generation_counts_appends :
    (∀ (s : SeriesStore) (ops : List Op), s.generation < 2 ^ 64 →
      (s.applyOps ops).generation
        = (s.generation
            + ((s.applyOps ops).data.points.length - s.data.points.length)) % 2 ^ 64)
  ∧ (∀ (s : SeriesStore) (op : Op),
      (s.applyOp op).2 = Except.error AppendError.WrongMode →
      (s.applyOp op).1.generation = s.generation
      ∧ (s.applyOp op).1.data.points.length = s.data.points.length) := by
  constructor
  · intro s ops hg
    exact (applyOps_gen ops s hg).1
  · intro s op herr
    cases op with
    | pushY y =>
      by_cases h : s.data.x_mode = XMode.Index
      · exfalso
        obtain ⟨e1, e2, e3⟩ := extend_y_spec s.data [y] h
        rw [List.length_singleton] at e1
        have hlen1 : s.data.points.length < (s.data.extend_y [y]).1.points.length := by
          omega
        have hp := List.get?_eq_get hlen1
        simp only [SeriesStore.applyOp, SeriesStore.push_y, AppendOnlyData.push_y, e3,
          Except.map, hp] at herr
        exact Except.noConfusion herr
      · simp only [SeriesStore.applyOp, SeriesStore.push_y, AppendOnlyData.push_y,
          extend_y_wrong_mode s.data [y] (by simp [h]), Except.map]
        exact ⟨by trivial, by trivial⟩
    | extendY vs =>
      by_cases h : s.data.x_mode = XMode.Index
      · exfalso
        obtain ⟨e1, e2, e3⟩ := extend_y_spec s.data vs h
        simp only [SeriesStore.applyOp, SeriesStore.extend_y, e3] at herr
        exact Except.noConfusion herr
      · simp only [SeriesStore.applyOp, SeriesStore.extend_y,
          extend_y_wrong_mode s.data vs (by simp [h])]
        exact ⟨by trivial, by trivial⟩
    | extendPoints ps =>
      by_cases h : s.data.x_mode = XMode.Explicit
      · exfalso
        obtain ⟨e1, e2, e3, e4⟩ := extend_points_spec s.data ps h
        by_cases hv : hasViol (s.data.points.getLast?.map Point.x) ps = true
        · simp only [SeriesStore.applyOp, SeriesStore.extend_points, e4] at herr
          simp [hv] at herr
        · simp only [SeriesStore.applyOp, SeriesStore.extend_points, e4] at herr
          simp [hv] at herr
      · simp only [SeriesStore.applyOp, SeriesStore.extend_points,
          extend_points_wrong_mode s.data ps (by simp [h])]
        exact ⟨by trivial, by trivial⟩
    | pushPoint p =>
      by_cases h : s.data.x_mode = XMode.Explicit
      · exfalso
        obtain ⟨e1, e2, e3, e4⟩ := extend_points_spec s.data [p] h
        by_cases hv : hasViol (s.data.points.getLast?.map Point.x) [p] = true
        · simp only [SeriesStore.applyOp, SeriesStore.push_point,
            SeriesStore.extend_points, e4] at herr
          simp [hv, Except.map] at herr
        · simp only [SeriesStore.applyOp, SeriesStore.push_point,
            SeriesStore.extend_points, e4] at herr
          simp [hv, Except.map] at herr
      · simp only [SeriesStore.applyOp, SeriesStore.push_point,
          SeriesStore.extend_points,
          extend_points_wrong_mode s.data [p] (by simp [h]), Except.map]
        exact ⟨by trivial, by trivial⟩

/-- Claim C5, witness for `generation_counts_appends`: three indexed
appends (one of them batched) bump the generation by three; a `push_point`
on an Index store returns `WrongMode` and changes nothing. -/
theorem generation_counts_appends_witness :
    SeriesStore.indexed.generation < 2 ^ 64
    ∧ (SeriesStore.indexed.applyOps
        [Op.extendY [F.fin 1, F.fin 2], Op.pushY (F.fin 3)]).generation
      = (SeriesStore.indexed.generation
          + ((SeriesStore.indexed.applyOps
              [Op.extendY [F.fin 1, F.fin 2], Op.pushY (F.fin 3)]).data.points.length
            - SeriesStore.indexed.data.points.length)) % 2 ^ 64
    ∧ (SeriesStore.indexed.applyOp (Op.pushPoint ⟨F.fin 0, F.fin 0⟩)).2
      = Except.error AppendError.WrongMode
    ∧ (SeriesStore.indexed.applyOp (Op.pushPoint ⟨F.fin 0, F.fin 0⟩)).1.generation
      = SeriesStore.indexed.generation
    ∧ (SeriesStore.indexed.applyOp
        (Op.pushPoint ⟨F.fin 0, F.fin 0⟩)).1.data.points.length
      = SeriesStore.indexed.data.points.length := by
  refine ⟨by decide, ?_, by decide, ?_, ?_⟩
  · exact generation_counts_appends.1 SeriesStore.indexed
      [Op.extendY [F.fin 1, F.fin 2], Op.pushY (F.fin 3)] (by decide)
  · exact (generation_counts_appends.2 SeriesStore.indexed
      (Op.pushPoint ⟨F.fin 0, F.fin 0⟩) (by decide)).1
  · exact (generation_counts_appends.2 SeriesStore.indexed
      (Op.pushPoint ⟨F.fin 0, F.fin 0⟩) (by decide)).2

theorem qtrunc_intCast (z : ℤ) : F.qtrunc (z : ℚ) = z := by
  unfold F.qtrunc
  split <;> simp

theorem toIsize_ceil_fin (q : ℚ) :
    F.toIsize (F.ceil (F.fin q)) = max (-(2 ^ 63)) (min (2 ^ 63 - 1) (Int.ceil q)) := by
  show F.toIsize (F.fin ((Int.ceil q : ℤ) : ℚ)) = _
  simp [F.toIsize, qtrunc_intCast]

theorem toIsize_floor_fin (q : ℚ) :
    F.toIsize (F.floor (F.fin q)) = max (-(2 ^ 63)) (min (2 ^ 63 - 1) (Int.floor q)) := by
  show F.toIsize (F.fin ((Int.floor q : ℤ) : ℚ)) = _
  simp [F.toIsize, qtrunc_intCast]

/-- Claim C6 (confirmed): Index-mode `range_by_x` returns exactly the
span from `ceil(r.min)` clamped below to 0 up to the exclusive end
`min(floor(r.max) + 1, len)` — stated as a membership characterization of
the returned span, under the claim's finite bounds (and a length bound
that keeps Rust's saturating casts out of play) — and the concrete
five-point example returns indices 2 and 3. -/
theorem index_range_rounding :
    (∀ (d : AppendOnlyData) (r : Range) (qmin qmax : ℚ) (i : ℕ),
      d.x_mode = XMode.Index → r.min = F.fin qmin → r.max = F.fin qmax →
      d.points.length < 2 ^ 63 →
      (((d.range_by_x r).1 ≤ i ∧ i < (d.range_by_x r).2) ↔
        (i < d.points.length ∧ Int.ceil qmin ≤ (i : ℤ) ∧ (i : ℤ) ≤ Int.floor qmax)))
  ∧ (AppendOnlyData.from_iter_y
      [F.fin 0, F.fin 1, F.fin 2, F.fin 3, F.fin 4]).range_by_x
      (Range.new (F.fin (6/5)) (F.fin (19/5))) = (2, 4) := by
  constructor
  · intro d r qmin qmax i hm h1 h2 hlen
    by_cases hnil : d.points = []
    · have hlen0 : d.points.length = 0 := by
        simp [hnil]
      simp only [AppendOnlyData.range_by_x, hnil, reduceIte, hlen0, List.length_nil]
      omega
    · have hr : d.range_by_x r = index_range r d.points.length := by
        simp [AppendOnlyData.range_by_x, hnil, hm]
      rw [hr]
      unfold index_range
      have hl0 : d.points.length ≠ 0 := by
        simpa [List.length_eq_zero] using hnil
      rw [if_neg hl0, h1, h2]
      simp only [toIsize_ceil_fin, toIsize_floor_fin]
      split_ifs with hcond
      · simp only [Prod.fst, Prod.snd]
        omega
      · simp only [Prod.fst, Prod.snd]
        omega
  · decide

/-- Claim C6, witness for `index_range_rounding`: the characterization at
a concrete store, index and fractional range. -/
theorem index_range_rounding_witness :
    (AppendOnlyData.from_iter_y [F.fin 0, F.fin 1, F.fin 2]).x_mode = XMode.Index
    ∧ (Range.new (F.fin (1/2)) (F.fin (3/2))).min = F.fin (1/2)
    ∧ (Range.new (F.fin (1/2)) (F.fin (3/2))).max = F.fin (3/2)
    ∧ (AppendOnlyData.from_iter_y [F.fin 0, F.fin 1, F.fin 2]).points.length < 2 ^ 63
    ∧ ((((AppendOnlyData.from_iter_y [F.fin 0, F.fin 1, F.fin 2]).range_by_x
          (Range.new (F.fin (1/2)) (F.fin (3/2)))).1 ≤ 1
        ∧ 1 < ((AppendOnlyData.from_iter_y [F.fin 0, F.fin 1, F.fin 2]).range_by_x
          (Range.new (F.fin (1/2)) (F.fin (3/2)))).2) ↔
        (1 < (AppendOnlyData.from_iter_y [F.fin 0, F.fin 1, F.fin 2]).points.length
        ∧ Int.ceil ((1:ℚ)/2) ≤ (1 : ℤ) ∧ ((1 : ℕ) : ℤ) ≤ Int.floor ((3:ℚ)/2))) := by
  refine ⟨by decide, by decide, by decide, by decide, ?_⟩
  exact index_range_rounding.1 (AppendOnlyData.from_iter_y [F.fin 0, F.fin 1, F.fin 2])
    (Range.new (F.fin (1/2)) (F.fin (3/2))) (1/2) (3/2) 1
    (by decide) (by decide) (by decide) (by decide)

theorem bsGo_bounds (ps : List Point) (pred : Point → Bool) :
    ∀ (fuel l r : ℕ), l ≤ r →
      l ≤ bsGo ps pred fuel l r ∧ bsGo ps pred fuel l r ≤ r := by
  intro fuel
  induction fuel with
  | zero =>
    intro l r h
    simp only [bsGo]
    exact ⟨le_refl _, h⟩
  | succ n ih =>
    intro l r h
    simp only [bsGo]
    by_cases hlr : l < r
    · cases hp : pred (ps.getD ((l + r) / 2) default) with
      | true =>
        simp only [hlr, reduceIte, hp]
        obtain ⟨a, b⟩ := ih ((l + r) / 2 + 1) r (by omega)
        exact ⟨by omega, b⟩
      | false =>
        simp only [hlr, reduceIte, hp, Bool.false_eq_true]
        obtain ⟨a, b⟩ := ih l ((l + r) / 2) (by omega)
        exact ⟨a, by omega⟩
    · simp only [hlr, reduceIte]
      exact ⟨le_refl _, h⟩

theorem bsGo_pred_mono (ps : List Point) (p q : Point → Bool)
    (hpq : ∀ x, p x = true → q x = true) :
    ∀ (fuel l r : ℕ), l ≤ r → bsGo ps p fuel l r ≤ bsGo ps q fuel l r := by
  intro fuel
  induction fuel with
  | zero =>
    intro l r h
    simp only [bsGo]
    exact le_refl _
  | succ n ih =>
    intro l r h
    simp only [bsGo]
    by_cases hlr : l < r
    · cases hp : p (ps.getD ((l + r) / 2) default) with
      | true =>
        have hq := hpq _ hp
        simp only [hlr, reduceIte, hp, hq]
        exact ih ((l + r) / 2 + 1) r (by omega)
      | false =>
        cases hq : q (ps.getD ((l + r) / 2) default) with
        | true =>
          have h1 := (bsGo_bounds ps p n l ((l + r) / 2) (by omega)).2
          have h2 := (bsGo_bounds ps q n ((l + r) / 2 + 1) r (by omega)).1
          simp only [hlr, reduceIte, hp, hq, Bool.false_eq_true]
          omega
        | false =>
          simp only [hlr, reduceIte, hp, hq, Bool.false_eq_true]
          exact ih l ((l + r) / 2) (by omega)
    · simp only [hlr, reduceIte]
      exact le_refl _

theorem index_range_bounds (r : Range) (len : ℕ) :
    (index_range r len).1 ≤ (index_range r len).2 ∧ (index_range r len).2 ≤ len := by
  simp only [index_range]
  split_ifs with h1 h2
  · exact ⟨le_refl _, Nat.zero_le _⟩
  · exact ⟨le_refl _, Nat.zero_le _⟩
  · constructor
    · simp only
      omega
    · simp only
      omega

/-- Claim C10 (confirmed): for every data set and every range with
`min <= max` (as `Range::new` guarantees for finite inputs), `range_by_x`
returns a span with `start <= end <= len`, so the slice taken in
`SeriesStore::decimate` is always in bounds. -/
theorem range_by_x_in_bounds (d : AppendOnlyData) (r : Range)
    (h : F.le r.min r.max = true) :
    (d.range_by_x r).1 ≤ (d.range_by_x r).2
    ∧ (d.range_by_x r).2 ≤ d.points.length := by
  rw [AppendOnlyData.range_by_x]
  by_cases hnil : d.points = []
  · simp [hnil]
  · rw [if_neg hnil]
    cases hm : d.x_mode with
    | Index => exact index_range_bounds r d.points.length
    | Explicit =>
      by_cases hmono : d.monotonic = true
      · simp only [hmono, Bool.not_true, Bool.false_eq_true, reduceIte]
        unfold lower_bound upper_bound
        constructor
        · exact bsGo_pred_mono d.points _ _
            (fun x hx => F.le_of_lt_of_le_f hx h) d.points.length 0 d.points.length
            (Nat.zero_le _)
        · exact (bsGo_bounds d.points _ d.points.length 0 d.points.length
            (Nat.zero_le _)).2
      · simp only [Bool.not_eq_true] at hmono
        simp [hmono]

/-- Claim C10, witness for `range_by_x_in_bounds`: a concrete monotonic
explicit store and an ordered range. -/
theorem range_by_x_in_bounds_witness :
    F.le (F.fin 0) (F.fin 2) = true
    ∧ ((AppendOnlyData.from_iter_points
        [⟨F.fin 0, F.fin 0⟩, ⟨F.fin 1, F.fin 1⟩]).range_by_x ⟨F.fin 0, F.fin 2⟩).1
      ≤ ((AppendOnlyData.from_iter_points
        [⟨F.fin 0, F.fin 0⟩, ⟨F.fin 1, F.fin 1⟩]).range_by_x ⟨F.fin 0, F.fin 2⟩).2
    ∧ ((AppendOnlyData.from_iter_points
        [⟨F.fin 0, F.fin 0⟩, ⟨F.fin 1, F.fin 1⟩]).range_by_x ⟨F.fin 0, F.fin 2⟩).2
      ≤ (AppendOnlyData.from_iter_points
        [⟨F.fin 0, F.fin 0⟩, ⟨F.fin 1, F.fin 1⟩]).points.length := by
  refine ⟨by decide, ?_⟩
  exact range_by_x_in_bounds (AppendOnlyData.from_iter_points
    [⟨F.fin 0, F.fin 0⟩, ⟨F.fin 1, F.fin 1⟩]) ⟨F.fin 0, F.fin 2⟩ (by decide)

/-- Claim C2 (corrected): the passthrough rule returns the raw sub-slice
verbatim, and the stateless min/max fallback keeps the `2 * pixel_width`
bound whenever the query span is positive; but the bound is not
unconditional — a degenerate span makes the fallback emit the whole
sub-slice (see the counterexample), and the summary path can also emit a
few points beyond the bound. -/
theorem decimate_bound_amended :
    (∀ (s : SeriesStore) (xr : Range) (pw : ℕ) (sc : DecimationScratch),
      pw ≠ 0 → s.data.points ≠ [] →
      (s.data.points.drop (s.data.range_by_x xr).1).take
          ((s.data.range_by_x xr).2 - (s.data.range_by_x xr).1) ≠ [] →
      ((s.data.points.drop (s.data.range_by_x xr).1).take
          ((s.data.range_by_x xr).2 - (s.data.range_by_x xr).1)).length
        ≤ satMul pw 2 →
      (s.decimate xr pw sc).points
        = (s.data.points.drop (s.data.range_by_x xr).1).take
            ((s.data.range_by_x xr).2 - (s.data.range_by_x xr).1))
  ∧ (∀ (ps : List Point) (xr : Range) (pw : ℕ) (sc : DecimationScratch),
      F.le xr.span (F.fin 0) = false →
      (decimate_minmax ps xr pw sc).points.length ≤ 2 * pw) := by
  constructor
  · intro s xr pw sc hpw hne hps hlen
    rw [SeriesStore.decimate]
    rw [if_neg (by simp [hpw, hne])]
    rw [if_neg hps, if_pos hlen]
  · intro ps xr pw sc hspan
    rw [decimate_minmax]
    by_cases hg : ps = [] ∨ pw = 0
    · rw [if_pos hg]
      simp
    · rw [if_neg hg, if_neg (by simp [hspan])]
      have h1 := joinEmit_length_le
        ((foldPoints xr pw ps (prepBuckets pw sc.buckets)).take pw)
      have h2 : ((foldPoints xr pw ps (prepBuckets pw sc.buckets)).take pw).length
          ≤ pw := by
        simp [List.length_take]
      simp only [foldl_push_ordered, List.nil_append]
      omega

/-- Claim C2, witness for `decimate_bound_amended`: a concrete passthrough
call returns the raw two-point sub-slice, and a concrete positive-span
fallback call stays within the bound. -/
theorem decimate_bound_amended_witness :
    (1 : ℕ) ≠ 0
    ∧ (SeriesStore.indexed.extend_y [F.fin 1, F.fin 2]).1.data.points ≠ []
    ∧ (((SeriesStore.indexed.extend_y [F.fin 1, F.fin 2]).1.decimate
        ⟨F.fin 0, F.fin 1⟩ 1 ⟨[], []⟩).points
      = ((SeriesStore.indexed.extend_y [F.fin 1, F.fin 2]).1.data.points.drop
          ((SeriesStore.indexed.extend_y [F.fin 1, F.fin 2]).1.data.range_by_x
            ⟨F.fin 0, F.fin 1⟩).1).take
          (((SeriesStore.indexed.extend_y [F.fin 1, F.fin 2]).1.data.range_by_x
            ⟨F.fin 0, F.fin 1⟩).2
          - ((SeriesStore.indexed.extend_y [F.fin 1, F.fin 2]).1.data.range_by_x
            ⟨F.fin 0, F.fin 1⟩).1))
    ∧ F.le (Range.span ⟨F.fin 0, F.fin 3⟩) (F.fin 0) = false
    ∧ (decimate_minmax [⟨F.fin 0, F.fin 1⟩, ⟨F.fin 1, F.fin 5⟩, ⟨F.fin 2, F.fin 2⟩]
        ⟨F.fin 0, F.fin 3⟩ 1 ⟨[], []⟩).points.length ≤ 2 * 1 := by
  refine ⟨by decide, by decide, ?_, by decide, ?_⟩
  · exact decimate_bound_amended.1 (SeriesStore.indexed.extend_y [F.fin 1, F.fin 2]).1
      ⟨F.fin 0, F.fin 1⟩ 1 ⟨[], []⟩ (by decide) (by decide) (by decide) (by decide)
  · exact decimate_bound_amended.2
      [⟨F.fin 0, F.fin 1⟩, ⟨F.fin 1, F.fin 5⟩, ⟨F.fin 2, F.fin 2⟩]
      ⟨F.fin 0, F.fin 3⟩ 1 ⟨[], []⟩ (by decide)

/-- Claim C2, counterexample: three equal-X points under a degenerate
query range take the min/max fallback, which emits all three points; the
output length 3 exceeds `2 * pixel_width = 2`, and the passthrough rule
does not apply since the raw sub-slice also has length 3. -/
theorem decimate_bound_cex :
    ((SeriesStore.with_base_chunk (AppendOnlyData.from_iter_points
        [⟨F.fin 5, F.fin 1⟩, ⟨F.fin 5, F.fin 2⟩, ⟨F.fin 5, F.fin 3⟩]) 64).decimate
        ⟨F.fin 5, F.fin 5⟩ 1 ⟨[], []⟩).points.length = 3
    ∧ ¬ (3 : ℕ) ≤ 2 * 1
    ∧ (((SeriesStore.with_base_chunk (AppendOnlyData.from_iter_points
        [⟨F.fin 5, F.fin 1⟩, ⟨F.fin 5, F.fin 2⟩, ⟨F.fin 5, F.fin 3⟩]) 64).data.points.drop
          ((SeriesStore.with_base_chunk (AppendOnlyData.from_iter_points
        [⟨F.fin 5, F.fin 1⟩, ⟨F.fin 5, F.fin 2⟩, ⟨F.fin 5, F.fin 3⟩]) 64).data.range_by_x
            ⟨F.fin 5, F.fin 5⟩).1).take
          (((SeriesStore.with_base_chunk (AppendOnlyData.from_iter_points
        [⟨F.fin 5, F.fin 1⟩, ⟨F.fin 5, F.fin 2⟩, ⟨F.fin 5, F.fin 3⟩]) 64).data.range_by_x
            ⟨F.fin 5, F.fin 5⟩).2
          - ((SeriesStore.with_base_chunk (AppendOnlyData.from_iter_points
        [⟨F.fin 5, F.fin 1⟩, ⟨F.fin 5, F.fin 2⟩, ⟨F.fin 5, F.fin 3⟩]) 64).data.range_by_x
            ⟨F.fin 5, F.fin 5⟩).1)).length = 3 := by
  decide

/-- Two scratch cells are interchangeable when both are empty (their stale
min/max fields are never read) or equal. -/
def Bucket.equiv (a b : Bucket) : Prop :=
  (a.has_data = false ∧ b.has_data = false) ∨ a = b

theorem Bucket.equiv_push {a b : Bucket} (p : Point) (h : Bucket.equiv a b) :
    Bucket.equiv (a.push p) (b.push p) := by
  cases h with
  | inl h =>
    right
    simp [Bucket.push, h.1, h.2]
  | inr h =>
    rw [h]
    exact Or.inr rfl

theorem Bucket.equiv_emit {a b : Bucket} (h : Bucket.equiv a b) : a.emit = b.emit := by
  cases h with
  | inl h => simp [Bucket.emit, h.1, h.2]
  | inr h => rw [h]

/-- Rows of scratch cells that agree (up to `Bucket.equiv`) on the first
`pw` cells, both rows at least `pw` long. -/
def EquivUpTo (pw : ℕ) (a b : List Bucket) : Prop :=
  pw ≤ a.length ∧ pw ≤ b.length
  ∧ ∀ i, i < pw → Bucket.equiv (a.getD i default) (b.getD i default)

theorem bucketIndex_lt (xr : Range) (pw : ℕ) (hpw : pw ≠ 0) (p : Point) (i : ℕ)
    (h : bucketIndex xr pw p = some i) : i < pw := by
  simp only [bucketIndex] at h
  by_cases h1 : (p.x.isFinite = false ∨ p.y.isFinite = false)
  · rw [if_pos h1] at h
    exact Option.noConfusion h
  · rw [if_neg h1] at h
    by_cases h2 : ((F.le (F.fin 0) (F.div (F.sub p.x xr.min) xr.span)
        && F.le (F.div (F.sub p.x xr.min) xr.span) (F.fin 1)) = false)
    · rw [if_pos h2] at h
      exact Option.noConfusion h
    · rw [if_neg h2] at h
      have h' := Option.some.inj h
      rw [← h']
      split_ifs with h3
      · omega
      · omega

theorem getD_set_self {α : Type} [Inhabited α] (l : List α) (i : ℕ) (x : α)
    (h : i < l.length) : (l.set i x).getD i default = x := by
  simp [List.getD_eq_getElem?_getD, List.getElem?_set_self h]

theorem getD_set_ne {α : Type} [Inhabited α] (l : List α) (i j : ℕ) (x : α)
    (h : i ≠ j) : (l.set i x).getD j default = l.getD j default := by
  simp [List.getD_eq_getElem?_getD, List.getElem?_set_ne h]

theorem foldPoints_cons (xr : Range) (pw : ℕ) (p : Point) (ps : List Point)
    (bks : List Bucket) :
    foldPoints xr pw (p :: ps) bks
      = foldPoints xr pw ps
          (match bucketIndex xr pw p with
           | none => bks
           | some i => bks.set i ((bks.getD i default).push p)) := rfl

theorem foldPoints_equiv (xr : Range) (pw : ℕ) (hpw : pw ≠ 0) (ps : List Point) :
    ∀ a b : List Bucket, EquivUpTo pw a b →
      EquivUpTo pw (foldPoints xr pw ps a) (foldPoints xr pw ps b) := by
  induction ps with
  | nil =>
    intro a b h
    exact h
  | cons p ps ih =>
    intro a b h
    rw [foldPoints_cons, foldPoints_cons]
    cases hidx : bucketIndex xr pw p with
    | none => exact ih a b h
    | some j =>
      have hj := bucketIndex_lt xr pw hpw p j hidx
      apply ih
      obtain ⟨ha, hb, hab⟩ := h
      refine ⟨by simpa using ha, by simpa using hb, ?_⟩
      intro i hi
      by_cases hij : j = i
      · subst hij
        rw [getD_set_self a j _ (by omega), getD_set_self b j _ (by omega)]
        exact Bucket.equiv_push p (hab j hi)
      · rw [getD_set_ne a j i _ hij, getD_set_ne b j i _ hij]
        exact hab i hi

theorem joinEmit_take_congr (pw : ℕ) :
    ∀ a b : List Bucket, EquivUpTo pw a b →
      joinEmit (a.take pw) = joinEmit (b.take pw) := by
  induction pw with
  | zero =>
    intro a b _
    simp [joinEmit]
  | succ n ih =>
    intro a b h
    obtain ⟨ha, hb, hab⟩ := h
    cases a with
    | nil => simp at ha
    | cons x xs =>
      cases b with
      | nil => simp at hb
      | cons y ys =>
        have h0 : Bucket.equiv x y := by
          simpa using hab 0 (by omega)
        simp only [List.take_succ_cons, joinEmit]
        rw [Bucket.equiv_emit h0]
        congr 1
        refine ih xs ys ⟨by simpa using ha, by simpa using hb, ?_⟩
        intro i hi
        simpa using hab (i + 1) (by omega)

theorem prepBuckets_spec (pw : ℕ) (buckets : List Bucket) :
    pw ≤ (prepBuckets pw buckets).length
    ∧ ∀ i, i < pw → ((prepBuckets pw buckets).getD i default).has_data = false := by
  unfold prepBuckets
  by_cases h : buckets.length < pw
  · simp only [h, reduceIte]
    have hl : (buckets ++ List.replicate (pw - buckets.length) default).length = pw := by
      simp
      omega
    constructor
    · simp [hl]
      omega
    · intro i hi
      have hfirst : i < (((buckets ++ List.replicate (pw - buckets.length)
          default).take pw).map Bucket.reset).length := by
        simp [hl]
        omega
      rw [List.getD_eq_getElem?_getD, List.getElem?_append, if_pos hfirst]
      rw [List.getElem?_eq_getElem hfirst]
      simp only [Option.getD_some]
      have hmap : i < (List.map Bucket.reset (List.take pw (buckets
          ++ List.replicate (pw - buckets.length) default))).length := hfirst
      rw [List.getElem_map]
      simp [Bucket.reset]
  · simp only [h, reduceIte]
    push_neg at h
    constructor
    · simp
      omega
    · intro i hi
      have hfirst : i < ((buckets.take pw).map Bucket.reset).length := by
        simp
        omega
      rw [List.getD_eq_getElem?_getD, List.getElem?_append, if_pos hfirst]
      rw [List.getElem?_eq_getElem hfirst]
      simp only [Option.getD_some]
      rw [List.getElem_map]
      simp [Bucket.reset]

theorem prep_equiv (pw : ℕ) (b1 b2 : List Bucket) :
    EquivUpTo pw (prepBuckets pw b1) (prepBuckets pw b2) :=
  ⟨(prepBuckets_spec pw b1).1, (prepBuckets_spec pw b2).1,
   fun i hi => Or.inl ⟨(prepBuckets_spec pw b1).2 i hi,
     (prepBuckets_spec pw b2).2 i hi⟩⟩

theorem decimate_minmax_points_indep (ps : List Point) (xr : Range) (pw : ℕ)
    (sc1 sc2 : DecimationScratch) :
    (decimate_minmax ps xr pw sc1).points = (decimate_minmax ps xr pw sc2).points := by
  rw [decimate_minmax, decimate_minmax]
  by_cases hg : ps = [] ∨ pw = 0
  · simp [hg]
  · rw [if_neg hg, if_neg hg]
    by_cases hs : F.le xr.span (F.fin 0) = true
    · simp [hs]
    · rw [if_neg hs, if_neg hs]
      simp only [foldl_push_ordered, List.nil_append]
      have hpw : pw ≠ 0 := by tauto
      exact joinEmit_take_congr pw _ _
        (foldPoints_equiv xr pw hpw ps _ _ (prep_equiv pw sc1.buckets sc2.buckets))

theorem decimate_points_indep (s : SeriesStore) (xr : Range) (pw : ℕ)
    (sc1 sc2 : DecimationScratch) :
    (s.decimate xr pw sc1).points = (s.decimate xr pw sc2).points := by
  simp only [SeriesStore.decimate]
  by_cases h1 : pw = 0 ∨ s.data.points = []
  · simp [h1]
  · rw [if_neg h1, if_neg h1]
    by_cases h2 : (s.data.points.drop (s.data.range_by_x xr).1).take
        ((s.data.range_by_x xr).2 - (s.data.range_by_x xr).1) = []
    · simp [h2]
    · rw [if_neg h2, if_neg h2]
      by_cases h3 : ((s.data.points.drop (s.data.range_by_x xr).1).take
          ((s.data.range_by_x xr).2 - (s.data.range_by_x xr).1)).length
          ≤ satMul pw 2
      · rw [if_pos h3, if_pos h3]
      · rw [if_neg h3, if_neg h3]
        by_cases h4 : s.data.x_mode = XMode.Explicit ∧ s.data.monotonic = false
        · rw [if_pos h4, if_pos h4]
          exact decimate_minmax_points_indep _ _ _ _ _
        · rw [if_neg h4, if_neg h4]
          by_cases h5 : F.toUsize (F.ceil (F.div
              (F.fin ((((s.data.points.drop (s.data.range_by_x xr).1).take
                ((s.data.range_by_x xr).2 - (s.data.range_by_x xr).1)).length : ℕ) : ℚ))
              (F.fin ((pw : ℕ) : ℚ)))) < s.summary.base_chunk
          · rw [if_pos h5, if_pos h5]
            exact decimate_minmax_points_indep _ _ _ _ _
          · rw [if_neg h5, if_neg h5]
            cases hcl : s.summary.choose_level (F.toUsize (F.ceil (F.div
                (F.fin ((((s.data.points.drop (s.data.range_by_x xr).1).take
                  ((s.data.range_by_x xr).2 - (s.data.range_by_x xr).1)).length : ℕ) : ℚ))
                (F.fin ((pw : ℕ) : ℚ))))) with
            | none =>
              simp only [hcl]
              exact decimate_minmax_points_indep _ _ _ _ _
            | some level =>
              simp only [hcl]

/-- Claim C9 (confirmed): `choose_level` is a pure function of the level
list and the target chunk (the other fields of `SummaryLevels` are never
read), and two `decimate` calls with the same store, range, pixel width
and (reused) scratch buffer produce identical output — the output never
depends on the incoming scratch contents. -/
theorem choose_level_pure_decimate_deterministic :
    (∀ a b : SummaryLevels, a.levels = b.levels →
      ∀ t, a.choose_level t = b.choose_level t)
  ∧ (∀ (s : SeriesStore) (xr : Range) (pw : ℕ) (sc : DecimationScratch),
      (s.decimate xr pw (s.decimate xr pw sc)).points = (s.decimate xr pw sc).points) := by
  constructor
  · intro a b h t
    unfold SummaryLevels.choose_level
    rw [h]
  · intro s xr pw sc
    exact decimate_points_indep s xr pw (s.decimate xr pw sc) sc

/-- Claim C9, witness for `choose_level_pure_decimate_deterministic`: two
summary states differing only in fields `choose_level` never reads select
the same level, and a repeated decimation call is bit-identical. -/
theorem choose_level_pure_decimate_deterministic_witness :
    (SummaryLevels.new 64).levels
      = ({ base_chunk := 1, levels := (SummaryLevels.new 64).levels,
           partialBkt := some (PartialBucket.new ⟨F.fin 0, F.fin 0⟩) } : SummaryLevels).levels
    ∧ (SummaryLevels.new 64).choose_level 5
      = ({ base_chunk := 1, levels := (SummaryLevels.new 64).levels,
           partialBkt := some (PartialBucket.new ⟨F.fin 0, F.fin 0⟩) }
          : SummaryLevels).choose_level 5
    ∧ ((SeriesStore.indexed.extend_y [F.fin 1, F.fin 2, F.fin 3]).1.decimate
        ⟨F.fin 0, F.fin 2⟩ 1
        ((SeriesStore.indexed.extend_y [F.fin 1, F.fin 2, F.fin 3]).1.decimate
          ⟨F.fin 0, F.fin 2⟩ 1 ⟨[], []⟩)).points
      = ((SeriesStore.indexed.extend_y [F.fin 1, F.fin 2, F.fin 3]).1.decimate
          ⟨F.fin 0, F.fin 2⟩ 1 ⟨[], []⟩).points := by
  refine ⟨by decide, ?_, ?_⟩
  · exact choose_level_pure_decimate_deterministic.1 (SummaryLevels.new 64)
      { base_chunk := 1, levels := (SummaryLevels.new 64).levels,
        partialBkt := some (PartialBucket.new ⟨F.fin 0, F.fin 0⟩) } (by decide) 5
  · exact choose_level_pure_decimate_deterministic.2
      (SeriesStore.indexed.extend_y [F.fin 1, F.fin 2, F.fin 3]).1
      ⟨F.fin 0, F.fin 2⟩ 1 ⟨[], []⟩

/-- The points of `ps` that the single pass of `decimate_minmax` folds
into pixel bucket `i`. -/
def bucketMembers (xr : Range) (pw : ℕ) (ps : List Point) (i : ℕ) : List Point :=
  ps.filter (fun p => decide (bucketIndex xr pw p = some i))

/-- The finite points of `ps` that the pass folds into some pixel bucket
(the points `decimate_minmax` does not skip). -/
def inRangeFinite (xr : Range) (pw : ℕ) (ps : List Point) : List Point :=
  ps.filter (fun p => (bucketIndex xr pw p).isSome)

theorem mem_bucketMembers_iff {xr : Range} {pw : ℕ} {ps : List Point} {i : ℕ}
    {q : Point} :
    q ∈ bucketMembers xr pw ps i ↔ q ∈ ps ∧ bucketIndex xr pw q = some i := by
  simp [bucketMembers, List.mem_filter]

theorem mem_inRangeFinite_iff {xr : Range} {pw : ℕ} {ps : List Point} {q : Point} :
    q ∈ inRangeFinite xr pw ps ↔ q ∈ ps ∧ (bucketIndex xr pw q).isSome = true := by
  simp [inRangeFinite, List.mem_filter]

theorem bucketIndex_some_finite {xr : Range} {pw : ℕ} {p : Point} {i : ℕ}
    (h : bucketIndex xr pw p = some i) :
    p.x.isFinite = true ∧ p.y.isFinite = true := by
  simp only [bucketIndex] at h
  by_cases h1 : (p.x.isFinite = false ∨ p.y.isFinite = false)
  · rw [if_pos h1] at h
    exact Option.noConfusion h
  · rcases not_or.mp h1 with ⟨hx, hy⟩
    exact ⟨by simpa using hx, by simpa using hy⟩

theorem F.le_of_lt_f {a b : F} (h : F.lt a b = true) : F.le a b = true := by
  cases a <;> cases b <;> simp_all [F.lt, F.le] <;> linarith

theorem F.exists_fin_of_isFinite {a : F} (h : F.isFinite a = true) :
    ∃ q : ℚ, a = F.fin q := by
  cases a <;> simp_all [F.isFinite]

theorem point_beq_eq {p q : Point} (hx : p.x.isFinite = true)
    (hy : p.y.isFinite = true) (h : Point.beq p q = true) : p = q := by
  obtain ⟨px, py⟩ := p
  obtain ⟨qx, qy⟩ := q
  simp only [Point.beq, Bool.and_eq_true] at h
  obtain ⟨h1, h2⟩ := h
  cases px <;> cases qx <;> cases py <;> cases qy <;>
    simp_all [F.beq, F.isFinite]

/-- Invariant of one pixel-bucket accumulator cell relative to the list of
points folded into it so far: empty cells stay unmarked, and a non-empty
cell holds a member attaining the minimum Y and a member attaining the
maximum Y. -/
def BInv (mem : List Point) (b : Bucket) : Prop :=
  (mem = [] → b.has_data = false)
  ∧ (mem ≠ [] → b.has_data = true ∧ b.min ∈ mem ∧ b.max ∈ mem
      ∧ ∀ q ∈ mem, F.le b.min.y q.y = true ∧ F.le q.y b.max.y = true)

theorem BInv_push {mem : List Point} {b : Bucket} {p : Point}
    (hfin : p.y.isFinite = true)
    (hmemfin : ∀ q ∈ mem, q.y.isFinite = true)
    (h : BInv mem b) : BInv (mem ++ [p]) (b.push p) := by
  by_cases hmem : mem = []
  · subst hmem
    have hd : b.has_data = false := h.1 rfl
    simp only [List.nil_append]
    refine ⟨by simp, fun _ => ?_⟩
    simp only [Bucket.push, hd, reduceIte]
    have hrefl := F.le_refl_f hfin
    refine ⟨by trivial, by simp, by simp, ?_⟩
    intro q hq
    have hq' : q = p := List.mem_singleton.mp hq
    rw [hq']
    exact ⟨hrefl, hrefl⟩
  · obtain ⟨hd, hmin, hmax, hb⟩ := h.2 hmem
    have hminfin : b.min.y.isFinite = true := hmemfin _ hmin
    have hmaxfin : b.max.y.isFinite = true := hmemfin _ hmax
    refine ⟨by simp, fun _ => ?_⟩
    simp only [Bucket.push, hd, Bool.true_eq_false, reduceIte]
    refine ⟨by trivial, ?_, ?_, ?_⟩
    · cases hlt : F.lt p.y b.min.y with
      | true => simp [hlt]
      | false =>
        simp only [hlt, Bool.false_eq_true, reduceIte]
        exact List.mem_append_left _ hmin
    · cases hgt : F.lt b.max.y p.y with
      | true => simp [hgt]
      | false =>
        simp only [hgt, Bool.false_eq_true, reduceIte]
        exact List.mem_append_left _ hmax
    · intro q hq
      rcases List.mem_append.mp hq with hq | hq
      · have hqfin := hmemfin q hq
        obtain ⟨hbq1, hbq2⟩ := hb q hq
        constructor
        · cases hlt : F.lt p.y b.min.y with
          | true =>
            have hple : F.le p.y b.min.y = true := F.le_of_lt_f hlt
            simpa [hlt] using F.le_trans_f hple hbq1
          | false => simpa [hlt] using hbq1
        · cases hgt : F.lt b.max.y p.y with
          | true =>
            have hple : F.le b.max.y p.y = true := F.le_of_lt_f hgt
            simpa [hgt] using F.le_trans_f hbq2 hple
          | false => simpa [hgt] using hbq2
      · have hq' : q = p := List.mem_singleton.mp hq
        rw [hq']
        constructor
        · cases hlt : F.lt p.y b.min.y with
          | true => simpa [hlt] using F.le_refl_f hfin
          | false =>
            simpa [hlt] using F.le_of_not_lt_f hfin hminfin (by simpa using hlt)
        · cases hgt : F.lt b.max.y p.y with
          | true => simpa [hgt] using F.le_refl_f hfin
          | false =>
            simpa [hgt] using F.le_of_not_lt_f hmaxfin hfin (by simpa using hgt)

theorem bucketMembers_append (xr : Range) (pw : ℕ) (processed : List Point)
    (p : Point) (i : ℕ) :
    bucketMembers xr pw (processed ++ [p]) i
      = bucketMembers xr pw processed i
        ++ (if bucketIndex xr pw p = some i then [p] else []) := by
  simp only [bucketMembers, List.filter_append]
  congr 1
  by_cases h : bucketIndex xr pw p = some i
  · simp [h]
  · simp [h]

theorem foldPoints_inv (xr : Range) (pw : ℕ) (hpw : pw ≠ 0) :
    ∀ (ps processed : List Point) (bks : List Bucket),
      pw ≤ bks.length →
      (∀ i, i < pw → BInv (bucketMembers xr pw processed i) (bks.getD i default)) →
      pw ≤ (foldPoints xr pw ps bks).length
      ∧ ∀ i, i < pw →
          BInv (bucketMembers xr pw (processed ++ ps) i)
            ((foldPoints xr pw ps bks).getD i default) := by
  intro ps
  induction ps with
  | nil =>
    intro processed bks hlen hinv
    simp only [foldPoints, List.foldl_nil, List.append_nil]
    exact ⟨hlen, hinv⟩
  | cons p ps ih =>
    intro processed bks hlen hinv
    rw [foldPoints_cons]
    have hassoc : processed ++ p :: ps = (processed ++ [p]) ++ ps := by simp
    rw [hassoc]
    cases hidx : bucketIndex xr pw p with
    | none =>
      apply ih (processed ++ [p]) bks hlen
      intro i hi
      rw [bucketMembers_append, hidx]
      rw [if_neg (by simp)]
      simpa using hinv i hi
    | some j =>
      have hj := bucketIndex_lt xr pw hpw p j hidx
      have hfin := bucketIndex_some_finite hidx
      apply ih (processed ++ [p]) _ (by simpa using hlen)
      intro i hi
      rw [bucketMembers_append, hidx]
      by_cases hij : j = i
      · subst hij
        rw [if_pos rfl]
        rw [getD_set_self bks j _ (by omega)]
        apply BInv_push hfin.2 ?_ (hinv j hi)
        intro q hq
        have hq' : bucketIndex xr pw q = some j :=
          (mem_bucketMembers_iff.mp hq).2
        exact (bucketIndex_some_finite hq').2
      · rw [if_neg (by simp [hij])]
        rw [getD_set_ne bks j i _ hij]
        simpa using hinv i hi

theorem emit_subset_minmax {b : Bucket} {x : Point} (h : x ∈ b.emit) :
    (x = b.min ∨ x = b.max) ∧ b.has_data = true := by
  rw [Bucket.emit] at h
  split_ifs at h with h1 h2 h3
  · simp at h
  · simp only [List.mem_singleton] at h
    exact ⟨Or.inl h, by simpa using h1⟩
  · simp only [List.mem_cons, List.mem_singleton, List.not_mem_nil, or_false] at h
    rcases h with h | h
    · exact ⟨Or.inl h, by simpa using h1⟩
    · exact ⟨Or.inr h, by simpa using h1⟩
  · simp only [List.mem_cons, List.mem_singleton, List.not_mem_nil, or_false] at h
    rcases h with h | h
    · exact ⟨Or.inr h, by simpa using h1⟩
    · exact ⟨Or.inl h, by simpa using h1⟩

theorem mem_emit_of_BInv {mem : List Point} {b : Bucket} (h : BInv mem b)
    (hne : mem ≠ [])
    (hfinx : ∀ q ∈ mem, q.x.isFinite = true)
    (hfiny : ∀ q ∈ mem, q.y.isFinite = true) :
    b.min ∈ b.emit ∧ b.max ∈ b.emit := by
  obtain ⟨hd, hmin, hmax, _⟩ := h.2 hne
  rw [Bucket.emit, if_neg (by simp [hd])]
  by_cases hbeq : Point.beq b.min b.max = true
  · have heq : b.min = b.max := point_beq_eq (hfinx _ hmin) (hfiny _ hmin) hbeq
    rw [if_pos hbeq]
    constructor
    · simp
    · simp [heq]
  · rw [if_neg hbeq]
    split_ifs <;> simp

theorem mem_joinEmit_of_mem (l : List Bucket) :
    ∀ (i : ℕ), i < l.length → ∀ x, x ∈ (l.getD i default).emit → x ∈ joinEmit l := by
  induction l with
  | nil =>
    intro i hi
    simp at hi
  | cons b bs ih =>
    intro i hi x hx
    cases i with
    | zero =>
      simp only [List.getD_cons_zero] at hx
      simp only [joinEmit, List.mem_append]
      exact Or.inl hx
    | succ n =>
      have := ih n (by simpa using hi) x (by simpa using hx)
      simp only [joinEmit, List.mem_append]
      exact Or.inr this

theorem mem_of_mem_joinEmit (l : List Bucket) :
    ∀ x, x ∈ joinEmit l → ∃ b, b ∈ l ∧ x ∈ b.emit := by
  induction l with
  | nil => simp [joinEmit]
  | cons b bs ih =>
    intro x hx
    simp only [joinEmit, List.mem_append] at hx
    cases hx with
    | inl h => exact ⟨b, by simp, h⟩
    | inr h =>
      obtain ⟨c, hc1, hc2⟩ := ih x h
      exact ⟨c, by simp [hc1], hc2⟩

theorem getD_take {α : Type} [Inhabited α] (l : List α) (pw i : ℕ) (hi : i < pw) :
    (l.take pw).getD i default = l.getD i default := by
  simp [List.getD_eq_getElem?_getD, List.getElem?_take, hi]

theorem bucketIndex_isSome_iff (xr : Range) (pw : ℕ) (p : Point) (qa qb : ℚ)
    (hmin : xr.min = F.fin qa) (hmax : xr.max = F.fin qb)
    (hspan : F.le xr.span (F.fin 0) = false)
    (hx : p.x.isFinite = true) (hy : p.y.isFinite = true) :
    ((bucketIndex xr pw p).isSome = true ↔ inXRange xr p = true) := by
  obtain ⟨c, hc⟩ := F.exists_fin_of_isFinite hx
  have hspanfin : xr.span = F.fin (qb - qa) := by
    rw [Range.span, hmin, hmax]
    rfl
  have hspan' : 0 < qb - qa := by
    rw [hspanfin] at hspan
    simp only [F.le, decide_eq_true_eq, decide_eq_false_iff_not] at hspan
    linarith
  have hdiv : F.div (F.sub (F.fin c) (F.fin qa)) (F.fin (qb - qa))
      = F.fin ((c - qa) / (qb - qa)) := by
    have hne : qb - qa ≠ 0 := by linarith
    simp [F.sub, F.div, hne]
  have harith : (0 ≤ (c - qa) / (qb - qa) ∧ (c - qa) / (qb - qa) ≤ 1)
      ↔ (qa ≤ c ∧ c ≤ qb) := by
    rw [le_div_iff hspan', div_le_one hspan']
    constructor
    · rintro ⟨u, v⟩
      constructor <;> linarith
    · rintro ⟨u, v⟩
      constructor <;> linarith
  simp only [bucketIndex, hc, hmin, hspanfin, hdiv]
  rw [if_neg (by simp [show (F.fin c).isFinite = true from rfl, hy])]
  simp only [inXRange, hmin, hmax, hc]
  simp only [F.le]
  split_ifs with hsplit hidx
  · simp only [Option.isSome_none, Bool.false_eq_true, false_iff,
      Bool.and_eq_true, decide_eq_true_eq]
    intro hcon
    obtain ⟨h1', h2'⟩ := harith.mpr hcon
    rw [decide_eq_true h1', decide_eq_true h2'] at hsplit
    simp at hsplit
  · simp only [Option.isSome_some, true_iff, Bool.and_eq_true, decide_eq_true_eq]
    apply harith.mp
    by_contra hcon
    rcases not_and_or.mp hcon with hcon | hcon
    · exact hsplit (by simp [decide_eq_false hcon])
    · exact hsplit (by simp [decide_eq_false hcon])
  · simp only [Option.isSome_some, true_iff, Bool.and_eq_true, decide_eq_true_eq]
    apply harith.mp
    by_contra hcon
    rcases not_and_or.mp hcon with hcon | hcon
    · exact hsplit (by simp [decide_eq_false hcon])
    · exact hsplit (by simp [decide_eq_false hcon])

/-- Claim C1 (corrected): with a positive query span, the min/max
decimation pass emits, for each occupied pixel bucket, a member attaining
the bucket's minimum Y and a member attaining its maximum Y; every output
point is one of the finite input points the pass folded into a bucket, so
its Y lies within the global Y bounds of those points; and for finite
range bounds the folded points are exactly the finite points with X inside
the range.  With a degenerate span (excluded here) the code instead copies
all points verbatim — see the counterexample. -/
theorem decimate_minmax_extrema (ps : List Point) (xr : Range) (pw : ℕ)
    (sc : DecimationScratch) (hpw : 1 ≤ pw)
    (hspan : F.le xr.span (F.fin 0) = false) :
    (∀ i, i < pw → bucketMembers xr pw ps i ≠ [] →
      (∃ p, p ∈ (decimate_minmax ps xr pw sc).points
        ∧ p ∈ bucketMembers xr pw ps i
        ∧ ∀ q ∈ bucketMembers xr pw ps i, F.le p.y q.y = true)
      ∧ (∃ p, p ∈ (decimate_minmax ps xr pw sc).points
        ∧ p ∈ bucketMembers xr pw ps i
        ∧ ∀ q ∈ bucketMembers xr pw ps i, F.le q.y p.y = true))
    ∧ (∀ p ∈ (decimate_minmax ps xr pw sc).points, p ∈ inRangeFinite xr pw ps)
    ∧ (∀ p ∈ (decimate_minmax ps xr pw sc).points,
        ∃ a ∈ inRangeFinite xr pw ps, ∃ b ∈ inRangeFinite xr pw ps,
          F.le a.y p.y = true ∧ F.le p.y b.y = true)
    ∧ (∀ (qa qb : ℚ) (p : Point), xr.min = F.fin qa → xr.max = F.fin qb →
        p.x.isFinite = true → p.y.isFinite = true →
        ((bucketIndex xr pw p).isSome = true ↔ inXRange xr p = true)) := by
  have hpw0 : pw ≠ 0 := by omega
  by_cases hps : ps = []
  · subst hps
    have hout : (decimate_minmax [] xr pw sc).points = [] := by
      rw [decimate_minmax, if_pos (Or.inl rfl)]
    refine ⟨?_, ?_, ?_, ?_⟩
    · intro i hi hne
      exact absurd rfl hne
    · intro p hp
      rw [hout] at hp
      simp at hp
    · intro p hp
      rw [hout] at hp
      simp at hp
    · intro qa qb p h1 h2 h3 h4
      exact bucketIndex_isSome_iff xr pw p qa qb h1 h2 hspan h3 h4
  · have hout : (decimate_minmax ps xr pw sc).points
        = joinEmit ((foldPoints xr pw ps (prepBuckets pw sc.buckets)).take pw) := by
      rw [decimate_minmax, if_neg (by simp [hps, hpw0]),
        if_neg (by simp [hspan])]
      simp only [foldl_push_ordered, List.nil_append]
    obtain ⟨hlenF, hinvF⟩ := foldPoints_inv xr pw hpw0 ps []
      (prepBuckets pw sc.buckets) (prepBuckets_spec pw sc.buckets).1
      (fun i hi => ⟨fun _ => (prepBuckets_spec pw sc.buckets).2 i hi,
        fun hne => absurd rfl hne⟩)
    simp only [List.nil_append] at hinvF
    have hmemfiny : ∀ i, ∀ q ∈ bucketMembers xr pw ps i, q.y.isFinite = true := by
      intro i q hq
      exact (bucketIndex_some_finite (mem_bucketMembers_iff.mp hq).2).2
    have hmemfinx : ∀ i, ∀ q ∈ bucketMembers xr pw ps i, q.x.isFinite = true := by
      intro i q hq
      exact (bucketIndex_some_finite (mem_bucketMembers_iff.mp hq).2).1
    have htklen : ((foldPoints xr pw ps (prepBuckets pw sc.buckets)).take pw).length
        = pw := by
      simp [List.length_take]
      omega
    have hsub : ∀ p ∈ (decimate_minmax ps xr pw sc).points,
        p ∈ inRangeFinite xr pw ps := by
      intro p hp
      rw [hout] at hp
      obtain ⟨b, hbmem, hbemit⟩ := mem_of_mem_joinEmit _ p hp
      obtain ⟨i, hilen, hieq⟩ := List.getElem_of_mem hbmem
      have hi : i < pw := by omega
      have hbeq : b
          = (foldPoints xr pw ps (prepBuckets pw sc.buckets)).getD i default := by
        rw [← getD_take _ pw i hi, List.getD_eq_getElem?_getD,
          List.getElem?_eq_getElem (by omega), ← hieq]
        rfl
      rw [hbeq] at hbemit
      obtain ⟨hor, hdata⟩ := emit_subset_minmax hbemit
      have hbinv := hinvF i hi
      have hne : bucketMembers xr pw ps i ≠ [] := by
        intro hcon
        rw [hbinv.1 hcon] at hdata
        exact Bool.noConfusion hdata
      obtain ⟨_, hmin, hmax, _⟩ := hbinv.2 hne
      have hpmem : p ∈ bucketMembers xr pw ps i := by
        rcases hor with hor | hor
        · rw [hor]
          exact hmin
        · rw [hor]
          exact hmax
      obtain ⟨hinps, hsome⟩ := mem_bucketMembers_iff.mp hpmem
      exact mem_inRangeFinite_iff.mpr ⟨hinps, by simp [hsome]⟩
    refine ⟨?_, hsub, ?_, ?_⟩
    · intro i hi hne
      have hbinv := hinvF i hi
      obtain ⟨hd, hmin, hmax, hbound⟩ := hbinv.2 hne
      obtain ⟨hemin, hemax⟩ := mem_emit_of_BInv hbinv hne (hmemfinx i) (hmemfiny i)
      have houtmem : ∀ x, x ∈ ((foldPoints xr pw ps
          (prepBuckets pw sc.buckets)).getD i default).emit →
          x ∈ (decimate_minmax ps xr pw sc).points := by
        intro x hx
        rw [hout]
        apply mem_joinEmit_of_mem _ i (by omega) x
        rw [getD_take _ pw i hi]
        exact hx
      exact ⟨⟨_, houtmem _ hemin, hmin, fun q hq => (hbound q hq).1⟩,
        ⟨_, houtmem _ hemax, hmax, fun q hq => (hbound q hq).2⟩⟩
    · intro p hp
      have hpin := hsub p hp
      have hfin : p.y.isFinite = true := by
        obtain ⟨hinps, hsome⟩ := mem_inRangeFinite_iff.mp hpin
        obtain ⟨j, hj⟩ := Option.isSome_iff_exists.mp hsome
        exact (bucketIndex_some_finite hj).2
      exact ⟨p, hpin, p, hpin, F.le_refl_f hfin, F.le_refl_f hfin⟩
    · intro qa qb p h1 h2 h3 h4
      exact bucketIndex_isSome_iff xr pw p qa qb h1 h2 hspan h3 h4

/-- Claim C1, witness for `decimate_minmax_extrema`: a concrete
positive-span call with one occupied bucket containing extremes 0.5
and 5. -/
theorem decimate_minmax_extrema_witness :
    (1 : ℕ) ≤ 1
    ∧ F.le (Range.span ⟨F.fin 0, F.fin 3⟩) (F.fin 0) = false
    ∧ ((∃ p, p ∈ (decimate_minmax
          [⟨F.fin 0, F.fin 1⟩, ⟨F.fin 1, F.fin 5⟩, ⟨F.fin 2, F.fin (1/2)⟩]
          ⟨F.fin 0, F.fin 3⟩ 1 ⟨[], []⟩).points
        ∧ p ∈ bucketMembers ⟨F.fin 0, F.fin 3⟩ 1
            [⟨F.fin 0, F.fin 1⟩, ⟨F.fin 1, F.fin 5⟩, ⟨F.fin 2, F.fin (1/2)⟩] 0
        ∧ ∀ q ∈ bucketMembers ⟨F.fin 0, F.fin 3⟩ 1
            [⟨F.fin 0, F.fin 1⟩, ⟨F.fin 1, F.fin 5⟩, ⟨F.fin 2, F.fin (1/2)⟩] 0,
            F.le p.y q.y = true)
      ∧ (∃ p, p ∈ (decimate_minmax
          [⟨F.fin 0, F.fin 1⟩, ⟨F.fin 1, F.fin 5⟩, ⟨F.fin 2, F.fin (1/2)⟩]
          ⟨F.fin 0, F.fin 3⟩ 1 ⟨[], []⟩).points
        ∧ p ∈ bucketMembers ⟨F.fin 0, F.fin 3⟩ 1
            [⟨F.fin 0, F.fin 1⟩, ⟨F.fin 1, F.fin 5⟩, ⟨F.fin 2, F.fin (1/2)⟩] 0
        ∧ ∀ q ∈ bucketMembers ⟨F.fin 0, F.fin 3⟩ 1
            [⟨F.fin 0, F.fin 1⟩, ⟨F.fin 1, F.fin 5⟩, ⟨F.fin 2, F.fin (1/2)⟩] 0,
            F.le q.y p.y = true)) := by
  refine ⟨le_refl 1, by decide, ?_⟩
  have h := decimate_minmax_extrema
    [⟨F.fin 0, F.fin 1⟩, ⟨F.fin 1, F.fin 5⟩, ⟨F.fin 2, F.fin (1/2)⟩]
    ⟨F.fin 0, F.fin 3⟩ 1 ⟨[], []⟩ (le_refl 1) (by decide)
  exact h.1 0 (by decide) (by decide)

/-- Claim C1, counterexample: with a degenerate (zero-span) range the pass
copies all points verbatim, so the output contains the point `(7, 100)`
whose Y is far outside the Y bounds of the finite points inside the range
(only `(5, 1)` lies inside `[5, 5]`). -/
theorem decimate_minmax_extrema_cex :
    (decimate_minmax [⟨F.fin 5, F.fin 1⟩, ⟨F.fin 7, F.fin 100⟩]
        ⟨F.fin 5, F.fin 5⟩ 1 ⟨[], []⟩).points
      = [⟨F.fin 5, F.fin 1⟩, ⟨F.fin 7, F.fin 100⟩]
    ∧ ([⟨F.fin 5, F.fin 1⟩, ⟨F.fin 7, F.fin 100⟩] : List Point).filter
        (fun p => inXRange ⟨F.fin 5, F.fin 5⟩ p
          && p.x.isFinite && p.y.isFinite) = [⟨F.fin 5, F.fin 1⟩]
    ∧ F.le (F.fin 100) (F.fin 1) = false := by
  decide

theorem getD_eq_get {α : Type} [Inhabited α] (l : List α) (i : ℕ) (h : i < l.length) :
    l.getD i default = l.get ⟨i, h⟩ := by
  simp [List.getD_eq_getElem?_getD, List.getElem?_eq_getElem h]

theorem hasViol_false_chain (ps : List Point) :
    ∀ lx : Option F, hasViol lx ps = false →
      List.Chain' (fun a b => F.lt b.x a.x = false) ps
      ∧ (∀ l, lx = some l → ∀ h ∈ ps.head?, F.lt h.x l = false) := by
  induction ps with
  | nil =>
    intro lx _
    exact ⟨List.chain'_nil, fun l _ h hh => by simp at hh⟩
  | cons p ps ih =>
    intro lx h
    simp only [hasViol, Bool.or_eq_false_iff] at h
    obtain ⟨h1, h2⟩ := h
    obtain ⟨ihc, ihj⟩ := ih (some p.x) h2
    constructor
    · rw [List.chain'_cons']
      exact ⟨fun y hy => ihj p.x rfl y hy, ihc⟩
    · intro l hl hd hhd
      subst hl
      simp only [List.head?_cons, Option.mem_def, Option.some.injEq] at hhd
      subst hhd
      exact h1

theorem buildExplicit_inv (batches : List (List Point)) :
    (buildExplicit batches).x_mode = XMode.Explicit
    ∧ ((buildExplicit batches).monotonic = true →
        List.Chain' (fun a b => F.lt b.x a.x = false) (buildExplicit batches).points) := by
  suffices h : ∀ d : AppendOnlyData, d.x_mode = XMode.Explicit →
      (d.monotonic = true → List.Chain' (fun a b => F.lt b.x a.x = false) d.points) →
      (batches.foldl (fun a ps => (a.extend_points ps).1) d).x_mode = XMode.Explicit
      ∧ ((batches.foldl (fun a ps => (a.extend_points ps).1) d).monotonic = true →
          List.Chain' (fun a b => F.lt b.x a.x = false)
            (batches.foldl (fun a ps => (a.extend_points ps).1) d).points) by
    exact h AppendOnlyData.explicit rfl (fun _ => List.chain'_nil)
  induction batches with
  | nil =>
    intro d h1 h2
    exact ⟨h1, h2⟩
  | cons ps batches ih =>
    intro d h1 h2
    simp only [List.foldl_cons]
    obtain ⟨e1, e2, e3, e4⟩ := extend_points_spec d ps h1
    apply ih _ e2
    intro hm
    rw [e3, Bool.and_eq_true, Bool.not_eq_true'] at hm
    rw [e1]
    obtain ⟨hc, hj⟩ := hasViol_false_chain ps _ hm.2
    rw [List.chain'_append]
    refine ⟨h2 hm.1, hc, ?_⟩
    intro x hx y hy
    apply hj x.x _ y hy
    rw [Option.mem_def] at hx
    rw [hx]
    rfl

theorem sorted_getD_of_chain (ps : List Point)
    (hfin : ∀ p ∈ ps, p.x.isFinite = true)
    (hc : List.Chain' (fun a b => F.lt b.x a.x = false) ps) :
    ∀ i j, i ≤ j → j < ps.length →
      F.le (ps.getD i default).x (ps.getD j default).x = true := by
  have hle : List.Chain' (fun a b => F.le a.x b.x = true) ps := by
    rw [List.chain'_iff_get] at hc ⊢
    intro i hi
    have h1 := hc i hi
    have hf1 : (ps.get ⟨i, by omega⟩).x.isFinite = true :=
      hfin _ (ps.get_mem _ _)
    have hf2 : (ps.get ⟨i + 1, by omega⟩).x.isFinite = true :=
      hfin _ (ps.get_mem _ _)
    exact F.le_of_not_lt_f hf2 hf1 h1
  haveI : IsTrans Point (fun a b => F.le a.x b.x = true) :=
    ⟨fun a b c h1 h2 => F.le_trans_f h1 h2⟩
  have hp : List.Pairwise (fun a b => F.le a.x b.x = true) ps :=
    List.chain'_iff_pairwise.mp hle
  intro i j hij hj
  rcases Nat.lt_or_ge i j with hlt | hge
  · rw [getD_eq_get ps i (by omega), getD_eq_get ps j hj]
    exact List.pairwise_iff_get.mp hp ⟨i, by omega⟩ ⟨j, hj⟩ hlt
  · have : i = j := by omega
    subst this
    rw [getD_eq_get ps i (by omega)]
    exact F.le_refl_f (hfin _ (ps.get_mem _ _))

theorem bsGo_char (ps : List Point) (pred : Point → Bool)
    (hdc : ∀ i j, i ≤ j → j < ps.length →
      pred (ps.getD j default) = true → pred (ps.getD i default) = true) :
    ∀ (fuel l r : ℕ), r - l ≤ fuel → l ≤ r → r ≤ ps.length →
      (∀ i, i < l → pred (ps.getD i default) = true) →
      (∀ i, r ≤ i → i < ps.length → pred (ps.getD i default) = false) →
      ∀ i, i < ps.length →
        (pred (ps.getD i default) = true ↔ i < bsGo ps pred fuel l r) := by
  intro fuel
  induction fuel with
  | zero =>
    intro l r hfuel hlr hrlen hleft hright i hi
    simp only [bsGo]
    constructor
    · intro hp
      by_contra hcon
      push_neg at hcon
      have hf := hright i (by omega) hi
      rw [hf] at hp
      exact Bool.noConfusion hp
    · intro hil
      exact hleft i hil
  | succ n ih =>
    intro l r hfuel hlr hrlen hleft hright i hi
    simp only [bsGo]
    by_cases hlr2 : l < r
    · cases hp : pred (ps.getD ((l + r) / 2) default) with
      | true =>
        simp only [hlr2, reduceIte, hp]
        apply ih ((l + r) / 2 + 1) r (by omega) (by omega) hrlen ?_ hright i hi
        intro k hk
        by_cases hkl : k < l
        · exact hleft k hkl
        · exact hdc k ((l + r) / 2) (by omega) (by omega) hp
      | false =>
        simp only [hlr2, reduceIte, hp, Bool.false_eq_true]
        apply ih l ((l + r) / 2) (by omega) (by omega) (by omega) hleft ?_ i hi
        intro k hk hklen
        cases hpk : pred (ps.getD k default) with
        | false => rfl
        | true =>
          have hcontra := hdc ((l + r) / 2) k hk hklen hpk
          rw [hcontra] at hp
          exact Bool.noConfusion hp
    · simp only [hlr2, reduceIte]
      constructor
      · intro hp
        by_contra hcon
        push_neg at hcon
        have hf := hright i (by omega) hi
        rw [hf] at hp
        exact Bool.noConfusion hp
      · intro hil
        exact hleft i hil

/-- Claim C3 (corrected): for every Explicit-mode data set built through
the append API whose monotonic flag is set AND all of whose X values are
finite, `range_by_x` on a finite range returns exactly the linear-scan
index span; the round-trip example returns the span `(1, 3)` = indices
`{1, 2}`.  The finiteness proviso is forced: a NaN X never compares
smaller, keeps the flag set, and breaks the binary search (see the
counterexample). -/
theorem monotonic_range_query_amended :
    (∀ (batches : List (List Point)) (r : Range) (a b : ℚ) (i : ℕ),
      (buildExplicit batches).monotonic = true →
      (∀ p ∈ (buildExplicit batches).points, p.x.isFinite = true) →
      r.min = F.fin a → r.max = F.fin b →
      ((((buildExplicit batches).range_by_x r).1 ≤ i
          ∧ i < ((buildExplicit batches).range_by_x r).2)
        ↔ (i < (buildExplicit batches).points.length
          ∧ inXRange r ((buildExplicit batches).points.getD i default) = true)))
  ∧ (AppendOnlyData.from_iter_points
      [⟨F.fin 0, F.fin 0⟩, ⟨F.fin 1, F.fin 1⟩, ⟨F.fin 2, F.fin 4⟩,
        ⟨F.fin 3, F.fin 9⟩]).range_by_x
      (Range.new (F.fin (1/2)) (F.fin (5/2))) = (1, 3) := by
  constructor
  · intro batches r a b i hmono hfin hrmin hrmax
    obtain ⟨hmode, hchain⟩ := buildExplicit_inv batches
    have hsorted := sorted_getD_of_chain _ hfin (hchain hmono)
    by_cases hnil : (buildExplicit batches).points = []
    · rw [AppendOnlyData.range_by_x, if_pos hnil]
      simp [hnil]
    · have hrw : (buildExplicit batches).range_by_x r
          = (lower_bound (buildExplicit batches).points r.min,
             upper_bound (buildExplicit batches).points r.max) := by
        rw [AppendOnlyData.range_by_x, if_neg hnil]
        simp only [hmode, hmono, Bool.not_true, Bool.false_eq_true, reduceIte]
      rw [hrw, hrmin, hrmax]
      have hgetfin : ∀ j, j < (buildExplicit batches).points.length →
          ((buildExplicit batches).points.getD j default).x.isFinite = true := by
        intro j hj
        rw [getD_eq_get _ j hj]
        exact hfin _ (List.get_mem _ _ _)
      have hdc1 : ∀ k j, k ≤ j → j < (buildExplicit batches).points.length →
          F.lt ((buildExplicit batches).points.getD j default).x (F.fin a) = true →
          F.lt ((buildExplicit batches).points.getD k default).x (F.fin a) = true := by
        intro k j hkj hj hp
        exact F.lt_of_le_of_lt_f (hsorted k j hkj hj) hp
      have hdc2 : ∀ k j, k ≤ j → j < (buildExplicit batches).points.length →
          F.le ((buildExplicit batches).points.getD j default).x (F.fin b) = true →
          F.le ((buildExplicit batches).points.getD k default).x (F.fin b) = true := by
        intro k j hkj hj hp
        exact F.le_trans_f (hsorted k j hkj hj) hp
      have hchar1 : ∀ k, k < (buildExplicit batches).points.length →
          (F.lt ((buildExplicit batches).points.getD k default).x (F.fin a) = true
            ↔ k < lower_bound (buildExplicit batches).points (F.fin a)) :=
        bsGo_char (buildExplicit batches).points
          (fun p => F.lt p.x (F.fin a)) hdc1 (buildExplicit batches).points.length
          0 (buildExplicit batches).points.length (by omega) (by omega) (le_refl _)
          (fun k hk => absurd hk (by omega))
          (fun k hk1 hk2 => absurd hk1 (by omega))
      have hchar2 : ∀ k, k < (buildExplicit batches).points.length →
          (F.le ((buildExplicit batches).points.getD k default).x (F.fin b) = true
            ↔ k < upper_bound (buildExplicit batches).points (F.fin b)) :=
        bsGo_char (buildExplicit batches).points
          (fun p => F.le p.x (F.fin b)) hdc2 (buildExplicit batches).points.length
          0 (buildExplicit batches).points.length (by omega) (by omega) (le_refl _)
          (fun k hk => absurd hk (by omega))
          (fun k hk1 hk2 => absurd hk1 (by omega))
      have hub : upper_bound (buildExplicit batches).points (F.fin b)
          ≤ (buildExplicit batches).points.length :=
        (bsGo_bounds (buildExplicit batches).points
          (fun p => F.le p.x (F.fin b)) (buildExplicit batches).points.length
          0 (buildExplicit batches).points.length (by omega)).2
      constructor
      · rintro ⟨h1, h2⟩
        have hilen : i < (buildExplicit batches).points.length := by
          exact lt_of_lt_of_le h2 hub
        have hnlt : F.lt ((buildExplicit batches).points.getD i default).x
            (F.fin a) = false := by
          cases hp : F.lt ((buildExplicit batches).points.getD i default).x
              (F.fin a) with
          | false => rfl
          | true =>
            have hcon := (hchar1 i hilen).mp hp
            omega
        have hgea : F.le (F.fin a)
            ((buildExplicit batches).points.getD i default).x = true :=
          F.le_of_not_lt_f (hgetfin i hilen) rfl hnlt
        have hleb : F.le ((buildExplicit batches).points.getD i default).x
            (F.fin b) = true := (hchar2 i hilen).mpr h2
        refine ⟨hilen, ?_⟩
        rw [inXRange, hrmin, hrmax, hgea, hleb]
        rfl
      · rintro ⟨hilen, hx⟩
        rw [inXRange, hrmin, hrmax, Bool.and_eq_true] at hx
        obtain ⟨hya, hyb⟩ := hx
        refine ⟨?_, (hchar2 i hilen).mp hyb⟩
        by_contra hcon
        push_neg at hcon
        have hlt := (hchar1 i hilen).mpr hcon
        rw [F.not_lt_of_le_f hya] at hlt
        exact Bool.noConfusion hlt
  · decide

/-- Claim C3, counterexample: a NaN X never compares smaller than its
predecessor, so the data set `[(NaN, 0), (0, 0)]` keeps its monotonic flag
set; `range_by_x([0, 0])` then returns the span `0..2`, which contains
index 0 although its X (NaN) is not in the range — the returned span is
not the linear-scan set. -/
theorem monotonic_range_query_cex :
    (AppendOnlyData.from_iter_points
      [⟨F.nan, F.fin 0⟩, ⟨F.fin 0, F.fin 0⟩]).monotonic = true
    ∧ Range.is_finite ⟨F.fin 0, F.fin 0⟩ = true
    ∧ (AppendOnlyData.from_iter_points
        [⟨F.nan, F.fin 0⟩, ⟨F.fin 0, F.fin 0⟩]).range_by_x
        ⟨F.fin 0, F.fin 0⟩ = (0, 2)
    ∧ inXRange ⟨F.fin 0, F.fin 0⟩
        ((AppendOnlyData.from_iter_points
          [⟨F.nan, F.fin 0⟩, ⟨F.fin 0, F.fin 0⟩]).points.getD 0 default) = false := by
  decide

/-- Claim C3, witness for `monotonic_range_query_amended`: the
characterization at a concrete two-point monotonic series. -/
theorem monotonic_range_query_amended_witness :
    (buildExplicit [[⟨F.fin 0, F.fin 0⟩, ⟨F.fin 1, F.fin 1⟩]]).monotonic = true
    ∧ (∀ p ∈ (buildExplicit [[⟨F.fin 0, F.fin 0⟩, ⟨F.fin 1, F.fin 1⟩]]).points,
        p.x.isFinite = true)
    ∧ (Range.new (F.fin 0) (F.fin 1)).min = F.fin 0
    ∧ (Range.new (F.fin 0) (F.fin 1)).max = F.fin 1
    ∧ ((((buildExplicit [[⟨F.fin 0, F.fin 0⟩, ⟨F.fin 1, F.fin 1⟩]]).range_by_x
          (Range.new (F.fin 0) (F.fin 1))).1 ≤ 0
        ∧ 0 < ((buildExplicit [[⟨F.fin 0, F.fin 0⟩, ⟨F.fin 1, F.fin 1⟩]]).range_by_x
          (Range.new (F.fin 0) (F.fin 1))).2)
      ↔ (0 < (buildExplicit [[⟨F.fin 0, F.fin 0⟩, ⟨F.fin 1, F.fin 1⟩]]).points.length
        ∧ inXRange (Range.new (F.fin 0) (F.fin 1))
            ((buildExplicit
              [[⟨F.fin 0, F.fin 0⟩, ⟨F.fin 1, F.fin 1⟩]]).points.getD 0 default)
          = true)) := by
  refine ⟨by decide, by decide, by decide, by decide, ?_⟩
  exact monotonic_range_query_amended.1 [[⟨F.fin 0, F.fin 0⟩, ⟨F.fin 1, F.fin 1⟩]]
    (Range.new (F.fin 0) (F.fin 1)) 0 1 0 (by decide) (by decide) (by decide) (by decide)

/-- Claim C8 (corrected, positive part): every query on empty data returns
`None` or the empty span, and a non-finite `x` makes `nearest_index_by_x`
return `None`; `range_by_x`, however, has no finiteness guard (see the
counterexample). -/
theorem queries_empty_and_nonfinite :
    (∀ (d : AppendOnlyData) (r : Range), d.points = [] → d.range_by_x r = (0, 0))
  ∧ (∀ (d : AppendOnlyData) (x : F), d.points = [] → d.nearest_index_by_x x = none)
  ∧ (∀ (d : AppendOnlyData) (x : F), x.isFinite = false →
      d.nearest_index_by_x x = none) := by
  refine ⟨?_, ?_, ?_⟩
  · intro d r h
    simp [AppendOnlyData.range_by_x, h]
  · intro d x h
    simp [AppendOnlyData.nearest_index_by_x, h]
  · intro d x h
    simp [AppendOnlyData.nearest_index_by_x, h]

/-- Claim C8, witness for `queries_empty_and_nonfinite`: concrete empty
and non-finite queries. -/
theorem queries_empty_and_nonfinite_witness :
    AppendOnlyData.explicit.points = ([] : List Point)
    ∧ AppendOnlyData.explicit.range_by_x ⟨F.fin 0, F.fin 1⟩ = (0, 0)
    ∧ F.isFinite F.nan = false
    ∧ (AppendOnlyData.from_iter_y [F.fin 1]).nearest_index_by_x F.nan = none := by
  refine ⟨by decide, ?_, by decide, ?_⟩
  · exact queries_empty_and_nonfinite.1 AppendOnlyData.explicit ⟨F.fin 0, F.fin 1⟩ (by decide)
  · exact queries_empty_and_nonfinite.2.2 (AppendOnlyData.from_iter_y [F.fin 1]) F.nan (by decide)

/-- Claim C8, counterexample: on non-empty Index-mode data, `range_by_x`
with a NaN range returns the non-empty span `0..1` instead of an empty
result — the code has no finiteness guard on range queries. -/
theorem range_by_x_nonfinite_cex :
    F.isFinite F.nan = false
    ∧ (AppendOnlyData.from_iter_y [F.fin 1]).points ≠ []
    ∧ (AppendOnlyData.from_iter_y [F.fin 1]).range_by_x ⟨F.nan, F.nan⟩ = (0, 1) := by
  decide

end LivePlot
